import Mathlib

/-!
Verification development for the Risk simulator's AI decision engine
(`ai_strategy.py`, reading board data shaped as in `game_board.py`).

The board is modelled shallowly: Python dicts become association lists
(preserving insertion/iteration order), floats become exact rationals,
and code paths that can raise in Python (attribute access on a missing
territory, division by zero) are modelled in the `Except Unit` monad,
where `.error ()` stands for the raised exception.  Randomness
(`random.random()`) is modelled by an explicit oracle `rs : Nat → ℚ` of
draws, consumed in iteration order.
-/

namespace Risk

/-- Territory record: `Territory.owner` / `Territory.armies` in `game_board.py`
(`owner = None` at creation, hence an `Option`). -/
structure Territory where
  owner : Option String
  armies : Int
deriving DecidableEq, Repr

/-- Continent record: member territory names and `bonus_armies`. -/
structure Continent where
  territories : List String
  bonus_armies : Int
deriving DecidableEq, Repr

/-- Board view consumed by the AI: `territories`, `continents` and
`adjacencies` dicts of `GameBoard`, as insertion-ordered association lists. -/
structure GameBoard where
  territories : List (String × Territory)
  continents : List (String × Continent)
  adjacencies : List (String × List String)
deriving DecidableEq, Repr

/-- Dict lookup `self.territories.get(name)` (`GameBoard.get_territory`). -/
def getTerritory (b : GameBoard) (n : String) : Option Territory :=
  (b.territories.find? (fun p => p.1 = n)).map Prod.snd

/-- Dict lookup `self.continents.get(name)`. -/
def getContinent (b : GameBoard) (n : String) : Option Continent :=
  (b.continents.find? (fun p => p.1 = n)).map Prod.snd

/-- Dict lookup `self.adjacencies.get(name, [])`. -/
def getAdj (b : GameBoard) (n : String) : List String :=
  match b.adjacencies.find? (fun p => p.1 = n) with
  | some p => p.2
  | none => []

/-- Dict lookup with default, `m.get(k, d)`. -/
def lookupD {α : Type} (m : List (String × α)) (k : String) (d : α) : α :=
  match m.find? (fun p => p.1 = k) with
  | some p => p.2
  | none => d

/-- Dict assignment `m[k] = v`: overwrite in place if the key exists
(keeping its position), else append. -/
def dictInsert {α : Type} (k : String) (v : α) (m : List (String × α)) :
    List (String × α) :=
  if m.any (fun p => p.1 = k) then
    m.map (fun p => if p.1 = k then (k, v) else p)
  else
    m ++ [(k, v)]

/-- Insertion step of a stable descending sort: `x` goes after every earlier
element whose key is `≥` its own, as Python's stable `sort(reverse=True)`. -/
def insertDescBy {α β : Type} [LinearOrder β] (key : α → β) (x : α) :
    List α → List α
  | [] => [x]
  | y :: ys => if key y ≤ key x then x :: y :: ys else y :: insertDescBy key x ys

/-- Stable descending sort by key, modelling Python's
`sort(key=..., reverse=True)` / `sorted(..., reverse=True)`. -/
def sortDescBy {α β : Type} [LinearOrder β] (key : α → β) : List α → List α
  | [] => []
  | x :: xs => insertDescBy key x (sortDescBy key xs)

theorem insertDescBy_perm {α β : Type} [LinearOrder β] (key : α → β) (x : α)
    (l : List α) : (insertDescBy key x l).Perm (x :: l) := by
  induction l with
  | nil => exact List.Perm.refl _
  | cons y ys ih =>
    simp only [insertDescBy]
    split
    · exact List.Perm.refl _
    · exact ((ih.cons y).trans (List.Perm.swap x y ys)).symm.symm

theorem sortDescBy_perm {α β : Type} [LinearOrder β] (key : α → β)
    (l : List α) : (sortDescBy key l).Perm l := by
  induction l with
  | nil => exact List.Perm.refl _
  | cons x xs ih => exact (insertDescBy_perm key x _).trans (ih.cons x)

theorem mem_of_mem_sortDescBy {α β : Type} [LinearOrder β] {key : α → β}
    {x : α} {l : List α} (h : x ∈ sortDescBy key l) : x ∈ l :=
  (sortDescBy_perm key l).mem_iff.mp h

/-- Keys of a dict after `dictInsert` are the old keys when the key was
present, else the old keys plus the new one. -/
theorem dictInsert_keys {α : Type} (k : String) (v : α) (m : List (String × α)) :
    (dictInsert k v m).map Prod.fst =
      if m.any (fun p => p.1 = k) then m.map Prod.fst
      else m.map Prod.fst ++ [k] := by
  by_cases hk : m.any (fun p => p.1 = k)
  · simp only [dictInsert, hk, if_true, List.map_map]
    refine List.map_congr_left ?_
    intro p _
    by_cases h : p.1 = k <;> simp [h]
  · simp [dictInsert, hk]

/-- Python truthiness of `self.target_continent and get_continent_for_territory(x) == self.target_continent`:
the stored target is non-`None` and equals the given continent lookup. -/
def targetMatch (target : Option String) (c : Option String) : Prop :=
  match target with
  | some tc => c = some tc
  | none => False

instance (target : Option String) (c : Option String) :
    Decidable (targetMatch target c) := by
  unfold targetMatch
  split <;> infer_instance

/-- Function `get_continent_for_territory` (lines 96-101): first continent, in
dict order, whose member list contains the territory name. -/
def get_continent_for_territory (b : GameBoard) (t : String) : Option String :=
  (b.continents.find? (fun p => t ∈ p.2.territories)).map Prod.fst

/-- Function `is_continent_gateway` (lines 82-94): the territory belongs to a
continent and some adjacent name resolves to a different (or no) continent. -/
def is_continent_gateway (b : GameBoard) (t : String) : Bool :=
  match get_continent_for_territory b t with
  | none => false
  | some tc =>
    (getAdj b t).any (fun a => get_continent_for_territory b a ≠ some tc)

/-- Function `count_continent_entry_points` (lines 64-80): member territories
with at least one neighbour resolving outside the continent, each counted at
most once, floored at 1; 0 when the continent name is absent. -/
def count_continent_entry_points (b : GameBoard) (cname : String) : Nat :=
  match getContinent b cname with
  | none => 0
  | some c =>
    max 1 ((c.territories.filter (fun t =>
      (getAdj b t).any (fun a => get_continent_for_territory b a ≠ some cname))).length)

/-- Function `is_front_line_territory` (lines 215-222): some adjacent territory
exists on the board and has a different owner. -/
def is_front_line_territory (b : GameBoard) (player : String) (t : String) : Bool :=
  (getAdj b t).any (fun a =>
    match getTerritory b a with
    | some tt => tt.owner ≠ some player
    | none => false)

/-- Total enemy armies on existing adjacent territories with a different owner
(loop of `calculate_territory_threat`, lines 464-470). -/
def enemyAdjacentArmies (b : GameBoard) (player : String) : List String → Int
  | [] => 0
  | a :: rest =>
    match getTerritory b a with
    | some tt =>
      (if tt.owner ≠ some player then tt.armies else 0) + enemyAdjacentArmies b player rest
    | none => enemyAdjacentArmies b player rest

/-- Function `calculate_territory_threat` (lines 458-480): enemy-to-own army
ratio normalised into [0, 1]; 0 for a missing or foreign territory. -/
def calculate_territory_threat (b : GameBoard) (player : String) (t : String) : ℚ :=
  match getTerritory b t with
  | none => 0
  | some tt =>
    if tt.owner ≠ some player then 0
    else
      let ea := enemyAdjacentArmies b player (getAdj b t)
      let ratio : ℚ := if 0 < tt.armies then (ea : ℚ) / (tt.armies : ℚ) else (ea : ℚ)
      min 1 (ratio / 3)

/-- Loop of `territories_owned = sum(1 for ... if get_territory(t).owner == player)`
(lines 22-23 and 112-113): raises when a listed member is missing from the
territory table. -/
def countOwned (b : GameBoard) (player : String) : List String → Except Unit Nat
  | [] => .ok 0
  | t :: ts =>
    match getTerritory b t with
    | none => .error ()
    | some tt => do
      let rest ← countOwned b player ts
      return (if tt.owner = some player then rest + 1 else rest)

/-- Function `get_player_continent_control` (lines 103-115): per-continent
owned fraction; an empty continent contributes 0 without any member lookup. -/
def get_player_continent_control (b : GameBoard) (player : String) :
    Except Unit (List (String × ℚ)) :=
  go b.continents
where
  go : List (String × Continent) → Except Unit (List (String × ℚ))
  | [] => .ok []
  | (cn, c) :: rest => do
    if c.territories.length = 0 then
      let r ← go rest
      return (cn, 0) :: r
    else do
      let o ← countOwned b player c.territories
      let r ← go rest
      return (cn, (o : ℚ) / (c.territories.length : ℚ)) :: r

/-- Function `get_continent_completion_territories` (lines 138-150): members of
the continent not owned by the player; raises on a missing member. -/
def get_continent_completion_territories (b : GameBoard) (cname : String)
    (player : String) : Except Unit (List String) :=
  match getContinent b cname with
  | none => .ok []
  | some c => go c.territories
where
  go : List String → Except Unit (List String)
  | [] => .ok []
  | t :: ts =>
    match getTerritory b t with
    | none => .error ()
    | some tt => do
      let rest ← go ts
      return (if tt.owner ≠ some player then t :: rest else rest)

/-- Continent loop of `AIStrategy.calculate_strategic_values` (lines 19-39):
`(bonus / entry_points) * ((owned/total)^2 + 0.1)` scaled by
`1.0 + (6 - total) * 0.1`; raises on a missing member (line 23) or an empty
member list (division by zero at line 31). -/
def contPrios (b : GameBoard) (player : String) :
    List (String × Continent) → Except Unit (List (String × ℚ))
  | [] => .ok []
  | (cn, c) :: rest => do
    let o ← countOwned b player c.territories
    let e := count_continent_entry_points b cn
    let v0 ← (if 0 < e then
        (if c.territories.length = 0 then (.error () : Except Unit ℚ)
         else .ok (((c.bonus_armies : ℚ) / (e : ℚ)) *
           (((o : ℚ) / (c.territories.length : ℚ)) ^ 2 + 1/10)))
      else .ok 0)
    let v := v0 * (1 + ((6 : ℚ) - (c.territories.length : ℚ)) * (1/10))
    let r ← contPrios b player rest
    return (cn, v) :: r

/-- Territory loop of `AIStrategy.calculate_strategic_values` (lines 42-62):
base 1.0, continent-priority factor `* 1.5`, gateway `* 1.5`, connectivity
factor floored at 0.8. -/
def terrVals (b : GameBoard) (prios : List (String × ℚ)) : List (String × ℚ) :=
  b.territories.map (fun p =>
    let v1 : ℚ :=
      match get_continent_for_territory b p.1 with
      | some c => 1 * (lookupD prios c 1 * (3/2))
      | none => 1
    let v2 := if is_continent_gateway b p.1 then v1 * (3/2) else v1
    let v3 := v2 * max (4/5) (1 + (((getAdj b p.1).length : ℚ) - 3) * (1/10))
    (p.1, v3))

/-- Method `AIStrategy.calculate_strategic_values` (lines 16-62): recomputes
continent priorities and territory values from the board. -/
def calculate_strategic_values (b : GameBoard) (player : String) :
    Except Unit (List (String × ℚ) × List (String × ℚ)) := do
  let prios ← contPrios b player b.continents
  return (prios, terrVals b prios)

/-- Value adjustment of `AggressiveStrategy.calculate_strategic_values`
(lines 486-491): `* (1.0 + (adj_count - 3) * 0.15)`. -/
def aggressiveVals (b : GameBoard) (vals : List (String × ℚ)) : List (String × ℚ) :=
  vals.map (fun p => (p.1, p.2 * (1 + (((getAdj b p.1).length : ℚ) - 3) * (3/20))))

/-- Value adjustment of `DefensiveStrategy.calculate_strategic_values`
(lines 514-519): gateways `* 1.5`. -/
def defensiveVals (b : GameBoard) (vals : List (String × ℚ)) : List (String × ℚ) :=
  vals.map (fun p => (p.1, if is_continent_gateway b p.1 then p.2 * (3/2) else p.2))

/-- Value adjustment of `NapoleonStrategy.calculate_strategic_values`
(lines 648-655): `* 1.5` when more than 4 connections. -/
def napoleonVals (b : GameBoard) (vals : List (String × ℚ)) : List (String × ℚ) :=
  vals.map (fun p => (p.1, if 4 < (getAdj b p.1).length then p.2 * (3/2) else p.2))

/-- Value adjustment of `GenghisKhanStrategy.calculate_strategic_values`
(lines 695-700): `* (1.0 + adj_count / 10.0)`. -/
def genghisVals (b : GameBoard) (vals : List (String × ℚ)) : List (String × ℚ) :=
  vals.map (fun p => (p.1, p.2 * (1 + ((getAdj b p.1).length : ℚ) / 10)))

/-- Value adjustment of `AlexanderStrategy.calculate_strategic_values`
(lines 754-760): the five highest-valued territories gain `* 1.8`. -/
def alexanderVals (vals : List (String × ℚ)) : List (String × ℚ) :=
  let top := ((sortDescBy (fun p => p.2) vals).take 5).map Prod.fst
  vals.map (fun p => (p.1, if p.1 ∈ top then p.2 * (9/5) else p.2))

/-- Value adjustment of `SunTzuStrategy.calculate_strategic_values`
(lines 799-808): gateway bonus 1.6 times connectivity factor. -/
def sunTzuVals (b : GameBoard) (vals : List (String × ℚ)) : List (String × ℚ) :=
  vals.map (fun p => (p.1, p.2 *
    ((if is_continent_gateway b p.1 then (8/5 : ℚ) else 1) *
      (1 + (((getAdj b p.1).length : ℚ) - 3) * (1/10)))))

/-- Value adjustment of `HannibalStrategy.calculate_strategic_values`
(lines 861-867): gateways `* 1.3`. -/
def hannibalVals (b : GameBoard) (vals : List (String × ℚ)) : List (String × ℚ) :=
  vals.map (fun p => (p.1, if is_continent_gateway b p.1 then p.2 * (13/10) else p.2))

/-- Method `ElizabethStrategy._calculate_security_factor` (lines 923-935):
fraction of adjacent names that exist and are friendly; 0 with no adjacency. -/
def securityFactor (b : GameBoard) (player : String) (t : String) : ℚ :=
  let adj := getAdj b t
  if adj.length = 0 then 0
  else
    ((adj.filter (fun a =>
      match getTerritory b a with
      | some tt => tt.owner = some player
      | none => false)).length : ℚ) / (adj.length : ℚ)

/-- Value adjustment of `ElizabethStrategy.calculate_strategic_values`
(lines 915-921): `* (1.0 + security * 0.5)`. -/
def elizabethVals (b : GameBoard) (player : String) (vals : List (String × ℚ)) :
    List (String × ℚ) :=
  vals.map (fun p => (p.1, p.2 * (1 + securityFactor b player p.1 * (1/2))))

/-- Strategy classes of `ai_strategy.py` (inheritance: Napoleon and Alexander
extend Aggressive, Genghis and Hannibal extend Opportunistic, SunTzu extends
Balanced, Elizabeth extends Defensive). -/
inductive Strat : Type
  | base
  | aggressive
  | defensive
  | balanced
  | opportunistic
  | napoleon
  | genghis
  | alexander
  | sunTzu
  | hannibal
  | elizabeth
deriving DecidableEq, Repr

/-- Dispatch of `self.calculate_strategic_values()` through the subclass
chain: each override runs its parent first, then its own value adjustment. -/
def csvVariant (v : Strat) (b : GameBoard) (player : String) :
    Except Unit (List (String × ℚ) × List (String × ℚ)) := do
  let pv ← calculate_strategic_values b player
  let vals :=
    match v with
    | .base | .balanced | .opportunistic => pv.2
    | .aggressive => aggressiveVals b pv.2
    | .defensive => defensiveVals b pv.2
    | .napoleon => napoleonVals b (aggressiveVals b pv.2)
    | .genghis => genghisVals b pv.2
    | .alexander => alexanderVals (aggressiveVals b pv.2)
    | .sunTzu => sunTzuVals b pv.2
    | .hannibal => hannibalVals b pv.2
    | .elizabeth => elizabethVals b player (defensiveVals b pv.2)
  return (pv.1, vals)

/-- Weighted continent priorities of `choose_target_continent` (lines 120-130):
`priority * ((control + 0.1) ** 2) * (0.8 + 0.4 * random.random())`, one fresh
draw per continent in iteration order. -/
def weightsOf (prios ctrl : List (String × ℚ)) (rs : Nat → ℚ) :
    List (String × ℚ) :=
  prios.enum.map (fun q =>
    (q.2.1, q.2.2 * ((lookupD ctrl q.2.1 0 + 1/10) ^ 2) * (4/5 + 2/5 * rs q.1)))

/-- Tail of Python's `max(items, key=lambda x: x[1])`: keep the first entry,
replacing it only on a strictly greater value. -/
def maxGo (k : String) (v : ℚ) : List (String × ℚ) → String
  | [] => k
  | (k1, v1) :: rest => if v < v1 then maxGo k1 v1 rest else maxGo k v rest

/-- Python's `max(weighted.items(), key=lambda x: x[1])[0]` guarded by
`if weighted:`; `none` for the empty dict. -/
def maxBySnd : List (String × ℚ) → Option String
  | [] => none
  | (k, v) :: rest => some (maxGo k v rest)

/-- Method `AIStrategy.choose_target_continent` (lines 117-136), with the
stored `continent_priorities` passed in as `prios` and the random source as
the oracle `rs`. -/
def choose_target_continent (prios : List (String × ℚ)) (b : GameBoard)
    (player : String) (rs : Nat → ℚ) : Except Unit (Option String) := do
  let ctrl ← get_player_continent_control b player
  return maxBySnd (weightsOf prios ctrl rs)

/-- Capture value of a territory (lines 247-258, identical lines 311-324):
stored value (default 1.0), `* 2.0` inside the target continent, `* 3.0` when
it is the single territory completing its continent. -/
def captureValue (vals : List (String × ℚ)) (target : Option String)
    (b : GameBoard) (player : String) (t : String) : Except Unit ℚ := do
  let cv0 := lookupD vals t 1
  let cv1 := if targetMatch target (get_continent_for_territory b t) then cv0 * 2 else cv0
  match get_continent_for_territory b t with
  | none => pure cv1
  | some c => do
    let needed ← get_continent_completion_territories b c player
    pure (if needed = [t] then cv1 * 3 else cv1)

/-- Neighbour loop of `calculate_attack_opportunity_score` (lines 233-261):
accumulate `(advantage - 1.0) * capture_value` over enemy neighbours with
advantage at least 1.5. -/
def oppLoop (vals : List (String × ℚ)) (target : Option String) (b : GameBoard)
    (player : String) (srcArmies : Int) : List String → ℚ → Except Unit ℚ
  | [], acc => .ok acc
  | a :: rest, acc =>
    match getTerritory b a with
    | none => oppLoop vals target b player srcArmies rest acc
    | some tt =>
      if tt.owner = some player then oppLoop vals target b player srcArmies rest acc
      else
        let adv : ℚ := if 0 < tt.armies then (srcArmies : ℚ) / (tt.armies : ℚ)
          else (srcArmies : ℚ)
        if 3/2 ≤ adv then do
          let cv ← captureValue vals target b player a
          oppLoop vals target b player srcArmies rest (acc + (adv - 1) * cv)
        else oppLoop vals target b player srcArmies rest acc

/-- Method `AIStrategy.calculate_attack_opportunity_score` (lines 224-263):
0.0 for a missing, foreign or single-army source, otherwise the accumulated
sum capped at 3.0. -/
def calculate_attack_opportunity_score (vals : List (String × ℚ))
    (target : Option String) (b : GameBoard) (player : String) (src : String) :
    Except Unit ℚ :=
  match getTerritory b src with
  | none => .ok 0
  | some ft =>
    if ft.owner ≠ some player ∨ ft.armies ≤ 1 then .ok 0
    else do
      let s ← oppLoop vals target b player ft.armies (getAdj b src) 0
      return min 3 s

/-- Method `AIStrategy.calculate_attack_score` (lines 292-331): 0.0 on the
guard of line 297, else win probability `clamp(0.5 + (adv-1)*0.2, 0.1, 0.9)`
times the strategic value with target, completion and weak-defence bonuses. -/
def calculate_attack_score (vals : List (String × ℚ)) (target : Option String)
    (b : GameBoard) (player : String) (f t : String) : Except Unit ℚ :=
  match getTerritory b f, getTerritory b t with
  | some ft, some tt =>
    if ft.owner ≠ some player ∨ tt.owner = some player then .ok 0
    else
      let adv : ℚ := if 0 < tt.armies then (ft.armies : ℚ) / (tt.armies : ℚ)
        else (ft.armies : ℚ)
      let wp := min (9/10) (max (1/10) (1/2 + (adv - 1) * (1/5)))
      do
        let sv ← captureValue vals target b player t
        let sv1 := if tt.armies ≤ 2 then sv * (3/2) else sv
        return wp * sv1
  | _, _ => .ok 0

/-- Method `AggressiveStrategy.calculate_attack_score` (lines 493-508):
parent score `* 1.3`, and `* 1.5` with a strictly more than doubled army. -/
def aggressiveAttackScore (vals : List (String × ℚ)) (target : Option String)
    (b : GameBoard) (player : String) (f t : String) : Except Unit ℚ := do
  let s0 ← calculate_attack_score vals target b player f t
  let s1 := s0 * (13/10)
  match getTerritory b f, getTerritory b t with
  | some ft, some tt => pure (if tt.armies * 2 < ft.armies then s1 * (3/2) else s1)
  | _, _ => pure s1

/-- Method `DefensiveStrategy.calculate_attack_score` (lines 542-556):
parent score `* 0.7`, then `* 3.0` when the attack completes a continent. -/
def defensiveAttackScore (vals : List (String × ℚ)) (target : Option String)
    (b : GameBoard) (player : String) (f t : String) : Except Unit ℚ := do
  let s0 ← calculate_attack_score vals target b player f t
  let s1 := s0 * (7/10)
  match get_continent_for_territory b t with
  | none => pure s1
  | some c => do
    let needed ← get_continent_completion_territories b c player
    pure (if needed = [t] then s1 * 3 else s1)

/-- Method `BalancedStrategy._get_other_players` (lines 586-594): owners seen
on the board, truthy (non-empty) and different from the player, first
occurrence order, no duplicates. -/
def otherPlayers (b : GameBoard) (player : String) : List String :=
  go b.territories []
where
  go : List (String × Territory) → List String → List String
  | [], acc => acc
  | (_, tt) :: rest, acc =>
    match tt.owner with
    | some o => if o ≠ "" ∧ o ≠ player ∧ ¬ o ∈ acc then go rest (acc ++ [o]) else go rest acc
    | none => go rest acc

/-- Opponent loop of `BalancedStrategy.calculate_attack_score` (lines 578-582):
break at the first other player controlling more than 0.6 of the continent. -/
def anyStrongController (b : GameBoard) (tc : String) :
    List String → Except Unit Bool
  | [] => .ok false
  | o :: rest => do
    let ctrl ← get_player_continent_control b o
    if 3/5 < lookupD ctrl tc 0 then return true
    else anyStrongController b tc rest

/-- Method `BalancedStrategy.calculate_attack_score` (lines 567-584): parent
score times the per-instance aggression factor, `* 1.5` when another player
controls more than 0.6 of the destination's continent. -/
def balancedAttackScore (aggr : ℚ) (vals : List (String × ℚ))
    (target : Option String) (b : GameBoard) (player : String) (f t : String) :
    Except Unit ℚ := do
  let s0 ← calculate_attack_score vals target b player f t
  let s1 := s0 * aggr
  match get_continent_for_territory b t with
  | none => pure s1
  | some tc => do
    let strong ← anyStrongController b tc (otherPlayers b player)
    pure (if strong then s1 * (3/2) else s1)

/-- Method `OpportunisticStrategy._get_player_strength` (lines 626-636):
`territory_count * 2 + army_count`. -/
def playerStrength (b : GameBoard) (name : String) : Int :=
  go b.territories
where
  go : List (String × Territory) → Int
  | [] => 0
  | (_, tt) :: rest => (if tt.owner = some name then 2 + tt.armies else 0) + go rest

/-- Method `OpportunisticStrategy.calculate_attack_score` (lines 600-624):
parent score, `* 1.5` against a player whose strength is below 0.7 of the
attacker's, `* 1.3` with a strictly more than doubled army. -/
def opportunisticAttackScore (vals : List (String × ℚ)) (target : Option String)
    (b : GameBoard) (player : String) (f t : String) : Except Unit ℚ := do
  let s0 ← calculate_attack_score vals target b player f t
  match getTerritory b t with
  | none => pure s0
  | some tt =>
    match tt.owner with
    | none => pure s0
    | some tp =>
      if tp = "" then pure s0
      else
        let s1 := if (playerStrength b tp : ℚ) < (playerStrength b player : ℚ) * (7/10)
          then s0 * (3/2) else s0
        match getTerritory b f with
        | some ft => pure (if tt.armies * 2 < ft.armies then s1 * (13/10) else s1)
        | none => pure s1

/-- Method `NapoleonStrategy.calculate_attack_score` (lines 657-667): parent
(Aggressive) score `* 1.4`, and `* 1.2` against a concentration of more than
3 armies. -/
def napoleonAttackScore (vals : List (String × ℚ)) (target : Option String)
    (b : GameBoard) (player : String) (f t : String) : Except Unit ℚ := do
  let s0 ← aggressiveAttackScore vals target b player f t
  let s1 := s0 * (7/5)
  match getTerritory b t with
  | some tt => pure (if 3 < tt.armies then s1 * (6/5) else s1)
  | none => pure s1

/-- Conditional multiplier layered by Napoleon on the Aggressive score. -/
def napoleonFactor (b : GameBoard) (t : String) : ℚ :=
  (7/5) * (match getTerritory b t with
    | some tt => if 3 < tt.armies then 6/5 else 1
    | none => 1)

/-- Method `GenghisKhanStrategy.calculate_attack_score` (lines 702-715):
parent (Opportunistic) score, `* 1.7` when the advantage exceeds 2.0. -/
def genghisAttackScore (vals : List (String × ℚ)) (target : Option String)
    (b : GameBoard) (player : String) (f t : String) : Except Unit ℚ := do
  let s0 ← opportunisticAttackScore vals target b player f t
  match getTerritory b f, getTerritory b t with
  | some ft, some tt =>
    if 0 < tt.armies then
      pure (if 2 < (ft.armies : ℚ) / (tt.armies : ℚ) then s0 * (17/10) else s0)
    else pure s0
  | _, _ => pure s0

/-- Conditional multiplier layered by Genghis Khan on the Opportunistic score. -/
def genghisFactor (b : GameBoard) (f t : String) : ℚ :=
  match getTerritory b f, getTerritory b t with
  | some ft, some tt =>
    if 0 < tt.armies ∧ 2 < (ft.armies : ℚ) / (tt.armies : ℚ) then 17/10 else 1
  | _, _ => 1

/-- Method `AlexanderStrategy.calculate_attack_score` (lines 762-778): parent
(Aggressive) score, `* 1.4` when an owned territory already borders the
destination. -/
def alexanderAttackScore (vals : List (String × ℚ)) (target : Option String)
    (b : GameBoard) (player : String) (f t : String) : Except Unit ℚ := do
  let s0 ← aggressiveAttackScore vals target b player f t
  let ongoing := (getAdj b t).any (fun a =>
    match getTerritory b a with
    | some tt => tt.owner = some player
    | none => false)
  pure (if ongoing then s0 * (7/5) else s0)

/-- Conditional multiplier layered by Alexander on the Aggressive score. -/
def alexanderFactor (b : GameBoard) (player : String) (t : String) : ℚ :=
  if (getAdj b t).any (fun a =>
      match getTerritory b a with
      | some tt => tt.owner = some player
      | none => false)
  then 7/5 else 1

/-- Method `SunTzuStrategy.calculate_attack_score` (lines 810-829): parent
(Balanced) score, `* 0.7` without a 1.5 advantage, `* 1.5` beyond a 2.5
advantage, and `* 1.8` against a gateway territory. -/
def sunTzuAttackScore (aggr : ℚ) (vals : List (String × ℚ))
    (target : Option String) (b : GameBoard) (player : String) (f t : String) :
    Except Unit ℚ := do
  let s0 ← balancedAttackScore aggr vals target b player f t
  let s1 :=
    match getTerritory b f, getTerritory b t with
    | some ft, some tt =>
      if 0 < tt.armies then
        let adv := (ft.armies : ℚ) / (tt.armies : ℚ)
        if adv < 3/2 then s0 * (7/10)
        else if 5/2 < adv then s0 * (3/2)
        else s0
      else s0
    | _, _ => s0
  pure (if is_continent_gateway b t then s1 * (9/5) else s1)

/-- Conditional multiplier layered by Sun Tzu on the Balanced score. -/
def sunTzuFactor (b : GameBoard) (f t : String) : ℚ :=
  (match getTerritory b f, getTerritory b t with
    | some ft, some tt =>
      if 0 < tt.armies then
        if (ft.armies : ℚ) / (tt.armies : ℚ) < 3/2 then (7/10 : ℚ)
        else if 5/2 < (ft.armies : ℚ) / (tt.armies : ℚ) then 3/2
        else 1
      else 1
    | _, _ => 1) *
  (if is_continent_gateway b t then 9/5 else 1)

/-- Enemy borders of a source territory (loops at lines 876-884 and 894-901):
adjacent names that exist with a different owner. -/
def enemyBorderCount (b : GameBoard) (player : String) (t : String) : Nat :=
  ((getAdj b t).filter (fun a =>
    match getTerritory b a with
    | some tt => decide (tt.owner ≠ some player)
    | none => false)).length

/-- Method `HannibalStrategy.calculate_attack_score` (lines 869-887): parent
(Opportunistic) score, `* 1.3` from a source bordering at least two enemies. -/
def hannibalAttackScore (vals : List (String × ℚ)) (target : Option String)
    (b : GameBoard) (player : String) (f t : String) : Except Unit ℚ := do
  let s0 ← opportunisticAttackScore vals target b player f t
  match getTerritory b f with
  | some _ => pure (if 2 ≤ enemyBorderCount b player f then s0 * (13/10) else s0)
  | none => pure s0

/-- Conditional multiplier layered by Hannibal on the Opportunistic score. -/
def hannibalFactor (b : GameBoard) (player : String) (f : String) : ℚ :=
  match getTerritory b f with
  | some _ => if 2 ≤ enemyBorderCount b player f then 13/10 else 1
  | none => 1

/-- Consolidation count of `ElizabethStrategy.calculate_attack_score`
(lines 941-951): owned territories adjacent to the destination, the attacking
source excluded. -/
def consolidationCount (b : GameBoard) (player : String) (f t : String) : Nat :=
  ((getAdj b t).filter (fun a =>
    decide (a ≠ f) && (match getTerritory b a with
      | some tt => decide (tt.owner = some player)
      | none => false))).length

/-- Method `ElizabethStrategy.calculate_attack_score` (lines 937-962): parent
(Defensive) score `* (1 + 0.2 * consolidation)`, and `* 0.6` without a clear
1.3 advantage. -/
def elizabethAttackScore (vals : List (String × ℚ)) (target : Option String)
    (b : GameBoard) (player : String) (f t : String) : Except Unit ℚ := do
  let s0 ← defensiveAttackScore vals target b player f t
  let s1 := s0 * (1 + (consolidationCount b player f t : ℚ) * (1/5))
  match getTerritory b f, getTerritory b t with
  | some ft, some tt =>
    if 0 < tt.armies then
      pure (if (ft.armies : ℚ) < (tt.armies : ℚ) * (13/10) then s1 * (3/5) else s1)
    else pure s1
  | _, _ => pure s1

/-- Conditional multiplier layered by Elizabeth on the Defensive score. -/
def elizabethFactor (b : GameBoard) (player : String) (f t : String) : ℚ :=
  (1 + (consolidationCount b player f t : ℚ) * (1/5)) *
  (match getTerritory b f, getTerritory b t with
    | some ft, some tt =>
      if 0 < tt.armies ∧ (ft.armies : ℚ) < (tt.armies : ℚ) * (13/10) then 3/5 else 1
    | _, _ => 1)

/-- Inner loop of `get_attack_targets` (lines 274-286) over the neighbours of
one source, with the subclass-dispatched `calculate_attack_score` passed as
`scoreFn`. -/
def attackCandsInner (scoreFn : String → String → Except Unit ℚ)
    (b : GameBoard) (player : String) (f : String) (fArmies : Int) :
    List String → Except Unit (List (String × String × Int × ℚ))
  | [] => .ok []
  | t :: rest =>
    match getTerritory b t with
    | none => attackCandsInner scoreFn b player f fArmies rest
    | some tt =>
      if tt.owner = some player then attackCandsInner scoreFn b player f fArmies rest
      else do
        let sc ← scoreFn f t
        let avail := min 3 (fArmies - 1)
        let r ← attackCandsInner scoreFn b player f fArmies rest
        return (if 0 < avail then (f, t, avail, sc) :: r else r)

/-- Outer loop of `get_attack_targets` (lines 269-286) over the owned list. -/
def attackCandsOuter (scoreFn : String → String → Except Unit ℚ)
    (b : GameBoard) (player : String) :
    List String → Except Unit (List (String × String × Int × ℚ))
  | [] => .ok []
  | f :: rest =>
    match getTerritory b f with
    | none => attackCandsOuter scoreFn b player rest
    | some ft =>
      if ft.armies ≤ 1 then attackCandsOuter scoreFn b player rest
      else do
        let c ← attackCandsInner scoreFn b player f ft.armies (getAdj b f)
        let r ← attackCandsOuter scoreFn b player rest
        return c ++ r

/-- Method `AIStrategy.get_attack_targets` (lines 265-290): enumerate
candidates, sort by score descending and keep the
`(source, destination, armies)` triples. -/
def get_attack_targets (scoreFn : String → String → Except Unit ℚ)
    (b : GameBoard) (player : String) (owned : List String) :
    Except Unit (List (String × String × Int)) := do
  let cands ← attackCandsOuter scoreFn b player owned
  return (sortDescBy (fun c => c.2.2.2) cands).map (fun c => (c.1, c.2.1, c.2.2.1))

/-- Generator of line 197-201: some neighbour is one of the needed territories
and (looked up unguarded, hence possibly raising) not owned by the player. -/
def bordersNeeded (b : GameBoard) (player : String) (needed : List String) :
    List String → Except Unit Bool
  | [] => .ok false
  | a :: rest =>
    if a ∈ needed then
      match getTerritory b a with
      | none => .error ()
      | some tt =>
        if tt.owner ≠ some player then .ok true
        else bordersNeeded b player needed rest
    else bordersNeeded b player needed rest

/-- Per-territory score of `get_best_reinforcement_territories` (lines
177-207): value, army factor `2/(armies+1)`, target-continent bonus,
near-completion bonus, attack-opportunity bonus. -/
def reinfScore (vals : List (String × ℚ)) (target : Option String)
    (b : GameBoard) (player : String) (t : String) (terr : Territory) :
    Except Unit ℚ := do
  let s0 := lookupD vals t 1
  let af ← (if ((terr.armies : ℚ) + 1) = 0 then (.error () : Except Unit ℚ)
    else .ok (2 / ((terr.armies : ℚ) + 1)))
  let s1 := s0 * af
  let s2 := if targetMatch target (get_continent_for_territory b t) then s1 * 2 else s1
  let s3 ← (match get_continent_for_territory b t with
    | none => pure s2
    | some c =>
      match getContinent b c with
      | none => pure s2
      | some _ => do
        let needed ← get_continent_completion_territories b c player
        if 1 ≤ needed.length ∧ needed.length ≤ 3 then do
          let bt ← bordersNeeded b player needed (getAdj b t)
          pure (if bt then s2 * (3/2) else s2)
        else pure s2)
  let opp ← calculate_attack_opportunity_score vals target b player t
  return s3 * (1 + opp)

/-- Scoring loop of `get_best_reinforcement_territories` (lines 171-209),
filling the `territory_scores` dict; a missing front-line territory is
skipped (guard at lines 173-175). -/
def scoreLoop (vals : List (String × ℚ)) (target : Option String)
    (b : GameBoard) (player : String) :
    List String → List (String × ℚ) → Except Unit (List (String × ℚ))
  | [], acc => .ok acc
  | t :: rest, acc =>
    match getTerritory b t with
    | none => scoreLoop vals target b player rest acc
    | some terr => do
      let s ← reinfScore vals target b player t terr
      scoreLoop vals target b player rest (dictInsert t s acc)

/-- Method `AIStrategy.get_best_reinforcement_territories` (lines 152-213),
with `self.calculate_strategic_values()` dispatched through the variant `v`:
recompute valuation and target, keep the front line (or everything when it is
empty), score and sort descending. -/
def reinfCore (v : Strat) (b : GameBoard) (player : String)
    (owned : List String) (rs : Nat → ℚ) : Except Unit (List String) := do
  let pv ← csvVariant v b player
  let target ← choose_target_continent pv.1 b player rs
  let fl := owned.filter (fun t => is_front_line_territory b player t)
  if fl = [] then
    return owned
  else do
    let scores ← scoreLoop pv.2 target b player fl []
    return (sortDescBy (fun p => p.2) scores).map Prod.fst

/-- Key of `DefensiveStrategy.get_best_reinforcement_territories`
(lines 528-535). -/
def defensivePriority (b : GameBoard) (ctrl : List (String × ℚ)) (t : String) : ℚ :=
  match get_continent_for_territory b t with
  | some c =>
    let cl := lookupD ctrl c 0
    if 3/5 < cl then cl * 2 else 0
  | none => 0

/-- Dispatch of `get_best_reinforcement_territories` through the subclass
chain: Defensive (inherited by Elizabeth) re-sorts by continent control,
Napoleon and Hannibal re-sort by adjacent enemy count, Alexander keeps only
front-line entries when any exist. -/
def get_best_reinforcement_territories (v : Strat) (b : GameBoard)
    (player : String) (owned : List String) (rs : Nat → ℚ) :
    Except Unit (List String) := do
  let base ← reinfCore v b player owned rs
  match v with
  | .defensive | .elizabeth => do
    let ctrl ← get_player_continent_control b player
    return sortDescBy (fun t => defensivePriority b ctrl t) base
  | .napoleon => return sortDescBy (fun t => enemyBorderCount b player t) base
  | .hannibal => return sortDescBy (fun t => enemyBorderCount b player t) base
  | .alexander =>
    let fl2 := base.filter (fun t => is_front_line_territory b player t)
    return (if fl2 = [] then base else fl2)
  | _ => return base

/-- Owned-subgraph lookup `territory_graph.get(t, [])` (lines 336-341):
neighbours restricted to the owned list, empty for keys outside it. -/
def tgLookup (b : GameBoard) (owned : List String) (t : String) : List String :=
  if t ∈ owned then (getAdj b t).filter (fun a => decide (a ∈ owned)) else []

theorem mem_tgLookup_owned {b : GameBoard} {owned : List String} {t n : String}
    (h : n ∈ tgLookup b owned t) : n ∈ owned := by
  unfold tgLookup at h
  split at h
  · simpa using (List.of_mem_filter h)
  · simp at h

theorem mem_tgLookup_adj {b : GameBoard} {owned : List String} {t n : String}
    (h : n ∈ tgLookup b owned t) : n ∈ getAdj b t := by
  unfold tgLookup at h
  split at h
  · exact List.mem_of_mem_filter h
  · simp at h

/-- Neighbour loop of the BFS (lines 374-377): mark unvisited neighbours
visited and queue them with their extended paths. -/
def enqueue (path : List String) :
    List String → List String → List (String × List String) →
    List String × List (String × List String)
  | [], visited, acc => (visited, acc)
  | n :: ns, visited, acc =>
    if n ∈ visited then enqueue path ns visited acc
    else enqueue path ns (visited ++ [n]) (acc ++ [(n, path ++ [n])])

theorem filter_len_mono {α : Type} (l : List α) (p q : α → Bool)
    (h : ∀ a, p a = true → q a = true) :
    (l.filter p).length ≤ (l.filter q).length := by
  induction l with
  | nil => exact Nat.le_refl 0
  | cons a as ih =>
    by_cases hp : p a = true
    · simp [List.filter, hp, h a hp]
      omega
    · simp only [List.filter, hp, Bool.false_eq_true, if_false]
      cases hq : q a <;> simp [hq] <;> omega

theorem filter_notMem_snoc {owned v : List String} {n : String}
    (hn : n ∈ owned) (hv : ¬ n ∈ v) :
    (owned.filter (fun t => decide (¬ t ∈ v ++ [n]))).length + 1 ≤
      (owned.filter (fun t => decide (¬ t ∈ v))).length := by
  induction owned with
  | nil => simp at hn
  | cons o os ih =>
    by_cases ho : o = n
    · subst ho
      have h1 : (decide (¬ o ∈ v ++ [o])) = false := by simp
      have h2 : (decide (¬ o ∈ v)) = true := by simpa using hv
      simp only [List.filter, h1, h2, if_false, List.length_cons]
      have := filter_len_mono os (fun t => decide (¬ t ∈ v ++ [o]))
        (fun t => decide (¬ t ∈ v)) (by intro a ha; simp at ha ⊢; exact ha.1)
      omega
    · have hn' : n ∈ os := by
        cases List.mem_cons.mp hn with
        | inl h => exact absurd h.symm ho
        | inr h => exact h
      have heq : (decide (¬ o ∈ v ++ [n])) = (decide (¬ o ∈ v)) := by
        simp [List.mem_append, ho]
      cases hc : decide (¬ o ∈ v) with
      | true =>
        simp only [List.filter, heq, hc, List.length_cons]
        have := ih hn'
        omega
      | false =>
        simp only [List.filter, heq, hc, Bool.false_eq_true, if_false]
        exact ih hn'

theorem enqueue_measure (owned : List String) (path : List String) :
    ∀ ns visited acc, (∀ n ∈ ns, n ∈ owned) →
    2 * (owned.filter (fun t => decide (¬ t ∈ (enqueue path ns visited acc).1))).length
      + ((enqueue path ns visited acc).2).length
    ≤ 2 * (owned.filter (fun t => decide (¬ t ∈ visited))).length + acc.length := by
  intro ns
  induction ns with
  | nil => intro visited acc _; simp [enqueue]
  | cons n ns ih =>
    intro visited acc hsub
    by_cases hv : n ∈ visited
    · simp only [enqueue, hv, if_true]
      exact ih visited acc (fun m hm => hsub m (List.mem_cons_of_mem n hm))
    · simp only [enqueue, hv, if_false]
      have h1 := ih (visited ++ [n]) (acc ++ [(n, path ++ [n])])
        (fun m hm => hsub m (List.mem_cons_of_mem n hm))
      have h2 := filter_notMem_snoc (hsub n (List.mem_cons_self n ns)) hv
      simp only [List.length_append, List.length_cons, List.length_nil] at h1 ⊢
      omega

/-- Search loop of `get_best_fortification_move` (lines 362-377): queue-based
breadth-first search over the owned subgraph; a non-start front-line node is
collected (with its path extended once more, as the source appends
`path + [current]` to a path already ending in `current`) and not expanded. -/
def bfsLoop (b : GameBoard) (owned front : List String) (start : String) :
    List (String × List String) → List String → List (String × List String)
  | [], _ => []
  | (c, path) :: rest, visited =>
    if c ≠ start ∧ c ∈ front then
      (c, path ++ [c]) :: bfsLoop b owned front start rest visited
    else
      let pr := enqueue path (tgLookup b owned c) visited []
      bfsLoop b owned front start (rest ++ pr.2) pr.1
termination_by q v => 2 * (owned.filter (fun t => decide (¬ t ∈ v))).length + q.length
decreasing_by
  · simp only [List.length_cons]
    omega
  · have h := enqueue_measure owned path (tgLookup b owned c) visited []
      (fun n hn => mem_tgLookup_owned hn)
    simp only [List.length_nil, List.length_append, List.length_cons] at h ⊢
    omega

/-- Method `AIStrategy.calculate_fortification_score` (lines 432-456): 0.0 for
a missing or foreign destination, else value, threat factor `(1 + 2*threat)`,
target-continent bonus and continent-control bonus. -/
def calculate_fortification_score (vals : List (String × ℚ))
    (target : Option String) (b : GameBoard) (player : String) (t : String) :
    Except Unit ℚ :=
  match getTerritory b t with
  | none => .ok 0
  | some tt =>
    if tt.owner ≠ some player then .ok 0
    else do
      let s0 := lookupD vals t 1
      let s1 := s0 * (1 + calculate_territory_threat b player t * 2)
      let s2 := if targetMatch target (get_continent_for_territory b t) then s1 * (3/2) else s1
      match get_continent_for_territory b t with
      | none => pure s2
      | some c => do
        let ctrl ← get_player_continent_control b player
        pure (if 1/2 < lookupD ctrl c 0 then s2 * (3/2) else s2)

/-- Candidate collection over the BFS results (lines 380-395): skip empty
paths and missing destinations, score, and move `max(1, armies - 1)`. -/
def fortCandsOfAccessible (vals : List (String × ℚ)) (target : Option String)
    (b : GameBoard) (player : String) (f : String) (fArmies : Int) :
    List (String × List String) → Except Unit (List (String × String × Int × ℚ))
  | [] => .ok []
  | (t, path) :: rest =>
    if path.length < 1 then fortCandsOfAccessible vals target b player f fArmies rest
    else
      match getTerritory b t with
      | none => fortCandsOfAccessible vals target b player f fArmies rest
      | some _ => do
        let sc ← calculate_fortification_score vals target b player t
        let r ← fortCandsOfAccessible vals target b player f fArmies rest
        return (f, t, max 1 (fArmies - 1), sc) :: r

/-- Primary pass of `get_best_fortification_move` (lines 356-395): interior
sources with more than one army, BFS-reachable front-line destinations. -/
def fortPrimary (vals : List (String × ℚ)) (target : Option String)
    (b : GameBoard) (player : String) (owned fl : List String) :
    List String → Except Unit (List (String × String × Int × ℚ))
  | [] => .ok []
  | f :: rest =>
    match getTerritory b f with
    | none => fortPrimary vals target b player owned fl rest
    | some ft =>
      if ft.armies ≤ 1 then fortPrimary vals target b player owned fl rest
      else do
        let acc := bfsLoop b owned fl f [(f, [])] [f]
        let cs ← fortCandsOfAccessible vals target b player f ft.armies acc
        let r ← fortPrimary vals target b player owned fl rest
        return cs ++ r

/-- Destination loop of the fallback pass (lines 410-424): directly adjacent
owned front-line destinations whose threat strictly exceeds the source's. -/
def fortFallbackInner (vals : List (String × ℚ)) (target : Option String)
    (b : GameBoard) (player : String) (fl : List String) (f : String)
    (fArmies : Int) (fth : ℚ) :
    List String → Except Unit (List (String × String × Int × ℚ))
  | [] => .ok []
  | t :: rest =>
    if t ∈ fl then
      match getTerritory b t with
      | none => fortFallbackInner vals target b player fl f fArmies fth rest
      | some _ => do
        let sc ← calculate_fortification_score vals target b player t
        let tth := calculate_territory_threat b player t
        let r ← fortFallbackInner vals target b player fl f fArmies fth rest
        return (if fth < tth then (f, t, max 1 (fArmies - 1), sc) :: r else r)
    else fortFallbackInner vals target b player fl f fArmies fth rest

/-- Fallback pass of `get_best_fortification_move` (lines 398-424):
front-line sources with more than one army and threat at most 0.5. -/
def fortFallback (vals : List (String × ℚ)) (target : Option String)
    (b : GameBoard) (player : String) (owned fl : List String) :
    List String → Except Unit (List (String × String × Int × ℚ))
  | [] => .ok []
  | f :: rest =>
    match getTerritory b f with
    | none => fortFallback vals target b player owned fl rest
    | some ft =>
      if ft.armies ≤ 1 then fortFallback vals target b player owned fl rest
      else
        let fth := calculate_territory_threat b player f
        if 1/2 < fth then fortFallback vals target b player owned fl rest
        else do
          let cs ← fortFallbackInner vals target b player fl f ft.armies fth
            (tgLookup b owned f)
          let r ← fortFallback vals target b player owned fl rest
          return cs ++ r

/-- Method `AIStrategy.get_best_fortification_move` (lines 333-430): classify
owned territories, run the primary pass, fall back to front-to-front moves,
sort by score and return the best `(source, destination, armies)` triple. -/
def get_best_fortification_move (vals : List (String × ℚ))
    (target : Option String) (b : GameBoard) (player : String)
    (owned : List String) : Except Unit (Option (String × String × Int)) := do
  let fl := owned.filter (fun t => is_front_line_territory b player t)
  let interior := owned.filter (fun t => ! is_front_line_territory b player t)
  let prim ← fortPrimary vals target b player owned fl interior
  let cands ← (if prim = [] then fortFallback vals target b player owned fl fl
    else pure prim)
  match sortDescBy (fun c => c.2.2.2) cands with
  | [] => pure none
  | c :: _ => pure (some (c.1, c.2.1, c.2.2.1))

/-- Replacement scan of `GenghisKhanStrategy.get_best_fortification_move`
(lines 731-740): the first owned front-line territory strictly better
connected than the planned destination, existing and different from the
source. -/
def genghisFortScan (b : GameBoard) (player : String) (source : String)
    (dAdj : Nat) : List String → Option String
  | [] => none
  | t :: rest =>
    if is_front_line_territory b player t ∧ dAdj < (getAdj b t).length ∧
        (getTerritory b t).isSome ∧ source ≠ t
    then some t
    else genghisFortScan b player source dAdj rest

/-- Method `GenghisKhanStrategy.get_best_fortification_move` (lines 717-742):
the parent's move, except that a destination with fewer than 3 connections is
replaced by the first better-connected owned front-line territory. -/
def genghisFortMove (vals : List (String × ℚ)) (target : Option String)
    (b : GameBoard) (player : String) (owned : List String) :
    Except Unit (Option (String × String × Int)) := do
  let bm ← get_best_fortification_move vals target b player owned
  match bm with
  | none => pure none
  | some (s, d, a) =>
    match getTerritory b d with
    | none => pure (some (s, d, a))
    | some _ =>
      let dAdj := (getAdj b d).length
      if dAdj < 3 then
        match genghisFortScan b player s dAdj owned with
        | some t => pure (some (s, t, a))
        | none => pure (some (s, d, a))
      else pure (some (s, d, a))

/-- Reachability from `x` through a nonempty chain of adjacency edges whose
endpoints (after the start) are all owned by the player; a direct adjacency
is a path of length 1. -/
inductive PlayerReach (b : GameBoard) (player : String) : String → String → Prop
  | single {x y : String} (hadj : y ∈ getAdj b x) {tt : Territory}
      (hy : getTerritory b y = some tt) (hown : tt.owner = some player) :
      PlayerReach b player x y
  | cons {x y z : String} (h : PlayerReach b player x y) (hadj : z ∈ getAdj b y)
      {tt : Territory} (hz : getTerritory b z = some tt)
      (hown : tt.owner = some player) : PlayerReach b player x z

theorem napoleon_composes (vals : List (String × ℚ)) (target : Option String)
    (b : GameBoard) (player : String) (f t : String) :
    napoleonAttackScore vals target b player f t =
      (aggressiveAttackScore vals target b player f t).map
        (fun s => s * napoleonFactor b t) := by
  unfold napoleonAttackScore napoleonFactor
  cases h : aggressiveAttackScore vals target b player f t with
  | error e => simp [h, Bind.bind, Except.bind, Except.map]
  | ok s =>
    simp only [h, Bind.bind, Except.bind, Except.map]
    cases getTerritory b t with
    | none => simp only [Pure.pure, Except.pure, Except.ok.injEq]; ring
    | some tt =>
      by_cases ha : 3 < tt.armies <;>
        simp only [ha, if_true, if_false, Pure.pure, Except.pure, Except.ok.injEq] <;> ring

theorem genghis_composes (vals : List (String × ℚ)) (target : Option String)
    (b : GameBoard) (player : String) (f t : String) :
    genghisAttackScore vals target b player f t =
      (opportunisticAttackScore vals target b player f t).map
        (fun s => s * genghisFactor b f t) := by
  unfold genghisAttackScore genghisFactor
  cases h : opportunisticAttackScore vals target b player f t with
  | error e => simp [h, Bind.bind, Except.bind, Except.map]
  | ok s =>
    simp only [h, Bind.bind, Except.bind, Except.map]
    cases hf : getTerritory b f with
    | none => simp only [Pure.pure, Except.pure, Except.ok.injEq]; ring
    | some ft =>
      cases ht : getTerritory b t with
      | none => simp only [Pure.pure, Except.pure, Except.ok.injEq]; ring
      | some tt =>
        by_cases h0 : 0 < tt.armies
        · by_cases h2 : 2 < (ft.armies : ℚ) / (tt.armies : ℚ) <;>
            simp only [h0, h2, true_and, and_true, if_true, if_false, and_self,
              Pure.pure, Except.pure, Except.ok.injEq] <;> ring
        · simp only [h0, false_and, if_false, if_neg h0, Pure.pure, Except.pure,
            Except.ok.injEq]
          ring

theorem alexander_composes (vals : List (String × ℚ)) (target : Option String)
    (b : GameBoard) (player : String) (f t : String) :
    alexanderAttackScore vals target b player f t =
      (aggressiveAttackScore vals target b player f t).map
        (fun s => s * alexanderFactor b player t) := by
  unfold alexanderAttackScore alexanderFactor
  cases h : aggressiveAttackScore vals target b player f t with
  | error e => simp [h, Bind.bind, Except.bind, Except.map]
  | ok s =>
    simp only [h, Bind.bind, Except.bind, Except.map]
    split <;> simp only [Pure.pure, Except.pure, Except.ok.injEq] <;> ring

theorem sunTzu_composes (aggr : ℚ) (vals : List (String × ℚ))
    (target : Option String) (b : GameBoard) (player : String) (f t : String) :
    sunTzuAttackScore aggr vals target b player f t =
      (balancedAttackScore aggr vals target b player f t).map
        (fun s => s * sunTzuFactor b f t) := by
  unfold sunTzuAttackScore sunTzuFactor
  cases h : balancedAttackScore aggr vals target b player f t with
  | error e => simp [h, Bind.bind, Except.bind, Except.map]
  | ok s =>
    simp only [h, Bind.bind, Except.bind, Except.map]
    cases hf : getTerritory b f with
    | none =>
      split <;> simp only [Pure.pure, Except.pure, Except.ok.injEq] <;> ring
    | some ft =>
      cases ht : getTerritory b t with
      | none =>
        split <;> simp only [Pure.pure, Except.pure, Except.ok.injEq] <;> ring
      | some tt =>
        by_cases h0 : 0 < tt.armies
        · by_cases hlt : (ft.armies : ℚ) / (tt.armies : ℚ) < 3/2
          · by_cases hg : is_continent_gateway b t = true <;>
              simp only [h0, hlt, hg, Bool.false_eq_true, if_true, if_false,
                Pure.pure, Except.pure, Except.ok.injEq] <;> ring
          · by_cases hgt : 5/2 < (ft.armies : ℚ) / (tt.armies : ℚ) <;>
              by_cases hg : is_continent_gateway b t = true <;>
              simp only [h0, hlt, hgt, hg, Bool.false_eq_true, if_true, if_false,
                Pure.pure, Except.pure, Except.ok.injEq] <;> ring
        · by_cases hg : is_continent_gateway b t = true <;>
            simp only [h0, hg, Bool.false_eq_true, if_true, if_false, Pure.pure,
              Except.pure, Except.ok.injEq] <;> ring

theorem hannibal_composes (vals : List (String × ℚ)) (target : Option String)
    (b : GameBoard) (player : String) (f t : String) :
    hannibalAttackScore vals target b player f t =
      (opportunisticAttackScore vals target b player f t).map
        (fun s => s * hannibalFactor b player f) := by
  unfold hannibalAttackScore hannibalFactor
  cases h : opportunisticAttackScore vals target b player f t with
  | error e => simp [h, Bind.bind, Except.bind, Except.map]
  | ok s =>
    simp only [h, Bind.bind, Except.bind, Except.map]
    cases hf : getTerritory b f with
    | none => simp only [Pure.pure, Except.pure, Except.ok.injEq]; ring
    | some ft =>
      by_cases hc : 2 ≤ enemyBorderCount b player f <;>
        simp only [hc, if_true, if_false, Pure.pure, Except.pure, Except.ok.injEq] <;>
        ring

theorem elizabeth_composes (vals : List (String × ℚ)) (target : Option String)
    (b : GameBoard) (player : String) (f t : String) :
    elizabethAttackScore vals target b player f t =
      (defensiveAttackScore vals target b player f t).map
        (fun s => s * elizabethFactor b player f t) := by
  unfold elizabethAttackScore elizabethFactor
  cases h : defensiveAttackScore vals target b player f t with
  | error e => simp [h, Bind.bind, Except.bind, Except.map]
  | ok s =>
    simp only [h, Bind.bind, Except.bind, Except.map]
    cases hf : getTerritory b f with
    | none => simp only [Pure.pure, Except.pure, Except.ok.injEq]; ring
    | some ft =>
      cases ht : getTerritory b t with
      | none => simp only [Pure.pure, Except.pure, Except.ok.injEq]; ring
      | some tt =>
        by_cases h0 : 0 < tt.armies
        · by_cases hc : (ft.armies : ℚ) < (tt.armies : ℚ) * (13/10) <;>
            simp only [h0, hc, true_and, and_true, if_true, if_false, and_self,
              Pure.pure, Except.pure, Except.ok.injEq] <;> ring
        · simp only [h0, false_and, if_false, if_neg h0, Pure.pure, Except.pure,
            Except.ok.injEq]
          ring

/-- C9: each named historical persona's `calculate_attack_score` equals its
parent archetype's `calculate_attack_score` on the same inputs multiplied by
the persona's own conditional factors (Napoleon and Alexander over
Aggressive, Genghis Khan and Hannibal over Opportunistic, Sun Tzu over
Balanced, Elizabeth over Defensive): the extension composes with the parent
formula and never bypasses it. -/
theorem persona_attack_scores_compose :
    (∀ vals target b player f t, napoleonAttackScore vals target b player f t =
      (aggressiveAttackScore vals target b player f t).map
        (fun s => s * napoleonFactor b t)) ∧
    (∀ vals target b player f t, genghisAttackScore vals target b player f t =
      (opportunisticAttackScore vals target b player f t).map
        (fun s => s * genghisFactor b f t)) ∧
    (∀ vals target b player f t, alexanderAttackScore vals target b player f t =
      (aggressiveAttackScore vals target b player f t).map
        (fun s => s * alexanderFactor b player t)) ∧
    (∀ aggr vals target b player f t, sunTzuAttackScore aggr vals target b player f t =
      (balancedAttackScore aggr vals target b player f t).map
        (fun s => s * sunTzuFactor b f t)) ∧
    (∀ vals target b player f t, hannibalAttackScore vals target b player f t =
      (opportunisticAttackScore vals target b player f t).map
        (fun s => s * hannibalFactor b player f)) ∧
    (∀ vals target b player f t, elizabethAttackScore vals target b player f t =
      (defensiveAttackScore vals target b player f t).map
        (fun s => s * elizabethFactor b player f t)) :=
  ⟨napoleon_composes, genghis_composes, alexander_composes, sunTzu_composes,
    hannibal_composes, elizabeth_composes⟩

/-- C10: `calculate_attack_score` returns 0.0 — rather than raising or
producing a positive score — whenever either territory is missing from the
board, the source is not owned by the player, or the destination is owned by
the player (guard at lines 294-298). -/
theorem attackScore_zero_on_invalid (vals : List (String × ℚ))
    (target : Option String) (b : GameBoard) (player : String) (f t : String)
    (h : getTerritory b f = none ∨ getTerritory b t = none ∨
      (∃ ft, getTerritory b f = some ft ∧ ft.owner ≠ some player) ∨
      (∃ tt, getTerritory b t = some tt ∧ tt.owner = some player)) :
    calculate_attack_score vals target b player f t = .ok 0 := by
  unfold calculate_attack_score
  cases hf : getTerritory b f with
  | none => rfl
  | some ft =>
    cases ht : getTerritory b t with
    | none => rfl
    | some tt =>
      have hguard : ft.owner ≠ some player ∨ tt.owner = some player := by
        rcases h with h | h | ⟨ft1, hft1, ho⟩ | ⟨tt1, htt1, ho⟩
        · rw [hf] at h; cases h
        · rw [ht] at h; cases h
        · rw [hf] at hft1
          exact Or.inl (by injection hft1 with e; rw [← e] at ho; exact ho)
        · rw [ht] at htt1
          exact Or.inr (by injection htt1 with e; rw [← e] at ho; exact ho)
      simp only [hguard, if_true, if_pos hguard]

/-- Witness for C10 at a concrete board: the source exists but belongs to
another player, and the score is 0. -/
theorem attackScore_zero_on_invalid_witness :
    (∃ ft, getTerritory
        { territories := [("S", ⟨some "Q", 3⟩), ("X", ⟨some "Q", 1⟩)],
          continents := [], adjacencies := [] } "S" = some ft ∧
        ft.owner ≠ some "P") ∧
    calculate_attack_score [] none
      { territories := [("S", ⟨some "Q", 3⟩), ("X", ⟨some "Q", 1⟩)],
        continents := [], adjacencies := [] } "P" "S" "X" = .ok 0 := by
  have hx : ∃ ft, getTerritory
      { territories := [("S", ⟨some "Q", 3⟩), ("X", ⟨some "Q", 1⟩)],
        continents := [], adjacencies := [] } "S" = some ft ∧
      ft.owner ≠ some "P" := by
    refine ⟨⟨some "Q", 3⟩, ?_, by simp⟩
    simp [getTerritory, List.find?]
  exact ⟨hx, attackScore_zero_on_invalid [] none _ "P" "S" "X"
    (Or.inr (Or.inr (Or.inl hx)))⟩

theorem attackCandsInner_sound (scoreFn : String → String → Except Unit ℚ)
    (b : GameBoard) (player : String) (f : String) (fArmies : Int) :
    ∀ adjs cs, attackCandsInner scoreFn b player f fArmies adjs = .ok cs →
    ∀ c ∈ cs, c.1 = f ∧ c.2.1 ∈ adjs ∧
      (∃ tt, getTerritory b c.2.1 = some tt ∧ tt.owner ≠ some player) ∧
      c.2.2.1 = min 3 (fArmies - 1) ∧ 0 < c.2.2.1 := by
  intro adjs
  induction adjs with
  | nil =>
    intro cs h c hc
    simp only [attackCandsInner, Except.ok.injEq] at h
    subst h
    cases hc
  | cons a rest ih =>
    intro cs h c hc
    simp only [attackCandsInner] at h
    cases ht : getTerritory b a with
    | none =>
      simp only [ht] at h
      obtain ⟨h1, h2, h3, h4, h5⟩ := ih cs h c hc
      exact ⟨h1, List.mem_cons_of_mem a h2, h3, h4, h5⟩
    | some tt =>
      simp only [ht] at h
      by_cases howner : tt.owner = some player
      · rw [if_pos howner] at h
        obtain ⟨h1, h2, h3, h4, h5⟩ := ih cs h c hc
        exact ⟨h1, List.mem_cons_of_mem a h2, h3, h4, h5⟩
      · rw [if_neg howner] at h
        cases hsc : scoreFn f a with
        | error e => rw [hsc] at h; simp [Bind.bind, Except.bind] at h
        | ok sc =>
          rw [hsc] at h
          cases hr : attackCandsInner scoreFn b player f fArmies rest with
          | error e => rw [hr] at h; simp [Bind.bind, Except.bind] at h
          | ok r =>
            rw [hr] at h
            simp only [Bind.bind, Except.bind, Pure.pure, Except.pure,
              Except.ok.injEq] at h
            by_cases hav : 0 < min 3 (fArmies - 1)
            · rw [if_pos hav] at h
              subst h
              rcases List.mem_cons.mp hc with hc1 | hc1
              · subst hc1
                exact ⟨rfl, List.mem_cons_self a rest, ⟨tt, ht, howner⟩, rfl, hav⟩
              · obtain ⟨h1, h2, h3, h4, h5⟩ := ih r hr c hc1
                exact ⟨h1, List.mem_cons_of_mem a h2, h3, h4, h5⟩
            · rw [if_neg hav] at h
              subst h
              obtain ⟨h1, h2, h3, h4, h5⟩ := ih r hr c hc
              exact ⟨h1, List.mem_cons_of_mem a h2, h3, h4, h5⟩

theorem attackCandsOuter_sound (scoreFn : String → String → Except Unit ℚ)
    (b : GameBoard) (player : String) :
    ∀ owned cs, attackCandsOuter scoreFn b player owned = .ok cs →
    ∀ c ∈ cs, ∃ ft, getTerritory b c.1 = some ft ∧ 1 < ft.armies ∧
      c.2.1 ∈ getAdj b c.1 ∧
      (∃ tt, getTerritory b c.2.1 = some tt ∧ tt.owner ≠ some player) ∧
      c.2.2.1 = min 3 (ft.armies - 1) ∧ 0 < c.2.2.1 := by
  intro owned
  induction owned with
  | nil =>
    intro cs h c hc
    simp only [attackCandsOuter, Except.ok.injEq] at h
    subst h
    cases hc
  | cons f rest ih =>
    intro cs h c hc
    simp only [attackCandsOuter] at h
    cases hf : getTerritory b f with
    | none =>
      simp only [hf] at h
      exact ih cs h c hc
    | some ft =>
      simp only [hf] at h
      by_cases harm : ft.armies ≤ 1
      · rw [if_pos harm] at h
        exact ih cs h c hc
      · rw [if_neg harm] at h
        cases hin : attackCandsInner scoreFn b player f ft.armies (getAdj b f) with
        | error e => rw [hin] at h; simp [Bind.bind, Except.bind] at h
        | ok inner =>
          rw [hin] at h
          cases hr : attackCandsOuter scoreFn b player rest with
          | error e => rw [hr] at h; simp [Bind.bind, Except.bind] at h
          | ok r =>
            rw [hr] at h
            simp only [Bind.bind, Except.bind, Pure.pure, Except.pure,
              Except.ok.injEq] at h
            subst h
            rcases List.mem_append.mp hc with hc1 | hc1
            · obtain ⟨h1, h2, h3, h4, h5⟩ :=
                attackCandsInner_sound scoreFn b player f ft.armies _ inner hin c hc1
              rw [h1]
              exact ⟨ft, hf, lt_of_not_le harm, h2, h3, h4, h5⟩
            · exact ih r hr c hc1

/-- C4: every triple returned by `get_attack_targets` (for any dispatched
score function) has a source that exists with at least 2 armies, a
destination adjacent to the source, existing and not owned by the player, and
committed force `min(3, armies(source) - 1)` between 1 and 3; candidates with
one army or a player-owned destination never appear. -/
theorem attack_targets_sound (scoreFn : String → String → Except Unit ℚ)
    (b : GameBoard) (player : String) (owned : List String)
    (hex : ∀ x ∈ owned, (getTerritory b x).isSome) (l : List (String × String × Int))
    (h : get_attack_targets scoreFn b player owned = .ok l) :
    ∀ trip ∈ l, ∃ ft tt, getTerritory b trip.1 = some ft ∧ 2 ≤ ft.armies ∧
      trip.2.1 ∈ getAdj b trip.1 ∧ getTerritory b trip.2.1 = some tt ∧
      tt.owner ≠ some player ∧ trip.2.2 = min 3 (ft.armies - 1) ∧
      1 ≤ trip.2.2 ∧ trip.2.2 ≤ 3 := by
  unfold get_attack_targets at h
  cases hc : attackCandsOuter scoreFn b player owned with
  | error e => rw [hc] at h; simp [Bind.bind, Except.bind] at h
  | ok cands =>
    rw [hc] at h
    simp only [Bind.bind, Except.bind, Pure.pure, Except.pure, Except.ok.injEq] at h
    subst h
    intro trip htrip
    obtain ⟨c, hcmem, hproj⟩ := List.mem_map.mp htrip
    have hcands := mem_of_mem_sortDescBy hcmem
    obtain ⟨ft, hft, harm, hadj, ⟨tt, htt, howner⟩, heq, hpos⟩ :=
      attackCandsOuter_sound scoreFn b player owned cands hc c hcands
    have h1 : trip.1 = c.1 := by rw [← hproj]
    have h2 : trip.2.1 = c.2.1 := by rw [← hproj]
    have h3 : trip.2.2 = c.2.2.1 := by rw [← hproj]
    rw [h1, h2, h3]
    refine ⟨ft, tt, hft, by omega, hadj, htt, howner, heq, ?_, ?_⟩
    · rw [heq]
      exact le_min (by norm_num) (by omega)
    · rw [heq]
      exact min_le_left 3 _

theorem lookupD_cons {α : Type} (k : String) (v : α) (m : List (String × α))
    (key : String) (d : α) :
    lookupD ((k, v) :: m) key d = if k = key then v else lookupD m key d := by
  by_cases h : k = key <;> simp [lookupD, List.find?, h]

theorem contPrios_lookup (b : GameBoard) (player : String) :
    ∀ l prios cname c O,
    contPrios b player l = .ok prios →
    l.find? (fun p => p.1 = cname) = some (cname, c) →
    countOwned b player c.territories = .ok O →
    0 < count_continent_entry_points b cname →
    lookupD prios cname 1 =
      ((c.bonus_armies : ℚ) / (count_continent_entry_points b cname : ℚ)) *
        (((O : ℚ) / (c.territories.length : ℚ)) ^ 2 + 1/10) *
        (1 + ((6 : ℚ) - (c.territories.length : ℚ)) * (1/10)) := by
  intro l
  induction l with
  | nil => intro prios cname c O _ hfind _ _; simp [List.find?] at hfind
  | cons p rest ih =>
    intro prios cname c O hok hfind hO he
    obtain ⟨cn0, c0⟩ := p
    simp only [contPrios] at hok
    by_cases hcn : cn0 = cname
    · subst hcn
      have hfind0 : List.find? (fun p => decide (p.1 = cn0)) ((cn0, c0) :: rest) =
          some (cn0, c0) := by
        simp [List.find?]
      rw [hfind0] at hfind
      injection hfind with hpair
      have hc0 : c0 = c := congrArg Prod.snd hpair
      subst hc0
      rw [hO] at hok
      simp only [Bind.bind, Except.bind] at hok
      rw [if_pos he] at hok
      by_cases hT : c0.territories.length = 0
      · rw [if_pos hT] at hok
        simp [Bind.bind, Except.bind] at hok
      · rw [if_neg hT] at hok
        cases hr : contPrios b player rest with
        | error e => rw [hr] at hok; simp [Bind.bind, Except.bind] at hok
        | ok pr =>
          rw [hr] at hok
          simp only [Bind.bind, Except.bind, Pure.pure, Except.pure,
            Except.ok.injEq] at hok
          subst hok
          rw [lookupD_cons, if_pos rfl]
    · have hfind0 : List.find? (fun p => decide (p.1 = cname)) ((cn0, c0) :: rest) =
          List.find? (fun p => decide (p.1 = cname)) rest := by
        simp [List.find?, hcn]
      rw [hfind0] at hfind
      cases hO0 : countOwned b player c0.territories with
      | error e => rw [hO0] at hok; simp [Bind.bind, Except.bind] at hok
      | ok o0 =>
        rw [hO0] at hok
        simp only [Bind.bind, Except.bind] at hok
        cases hv0 : (if 0 < count_continent_entry_points b cn0 then
            (if c0.territories.length = 0 then (.error () : Except Unit ℚ)
             else .ok (((c0.bonus_armies : ℚ) / (count_continent_entry_points b cn0 : ℚ)) *
               (((o0 : ℚ) / (c0.territories.length : ℚ)) ^ 2 + 1/10)))
          else .ok 0) with
        | error e => rw [hv0] at hok; simp [Bind.bind, Except.bind] at hok
        | ok v0 =>
          rw [hv0] at hok
          cases hr : contPrios b player rest with
          | error e => rw [hr] at hok; simp [Bind.bind, Except.bind] at hok
          | ok pr =>
            rw [hr] at hok
            simp only [Bind.bind, Except.bind, Pure.pure, Except.pure,
              Except.ok.injEq] at hok
            subst hok
            rw [lookupD_cons, if_neg hcn]
            exact ih pr cname c O hr hfind hO he

/-- C3: for every continent present on the board, the stored continent
priority equals `(bonus / E) * ((O/T)^2 + 0.1) * (1.0 + (6 - T) * 0.1)`,
where `E` is the entry-point count floored at 1, `O` the owned member count
and `T` the member count. -/
theorem strategic_priority_formula (b : GameBoard) (player : String)
    (prios vals : List (String × ℚ)) (cname : String) (c : Continent) (O : Nat)
    (hok : calculate_strategic_values b player = .ok (prios, vals))
    (hc : getContinent b cname = some c)
    (hO : countOwned b player c.territories = .ok O) :
    lookupD prios cname 1 =
      ((c.bonus_armies : ℚ) / (count_continent_entry_points b cname : ℚ)) *
        (((O : ℚ) / (c.territories.length : ℚ)) ^ 2 + 1/10) *
        (1 + ((6 : ℚ) - (c.territories.length : ℚ)) * (1/10)) := by
  have he : 0 < count_continent_entry_points b cname := by
    unfold count_continent_entry_points
    rw [hc]
    exact Nat.lt_of_lt_of_le Nat.zero_lt_one (le_max_left 1 _)
  have hfind : b.continents.find? (fun p => p.1 = cname) = some (cname, c) := by
    unfold getContinent at hc
    cases hf : b.continents.find? (fun p => p.1 = cname) with
    | none => rw [hf] at hc; cases hc
    | some pr =>
      rw [hf] at hc
      have hp := List.find?_some hf
      simp only [decide_eq_true_eq] at hp
      injection hc with hc2
      rw [← hp, ← hc2]
  unfold calculate_strategic_values at hok
  cases hcp : contPrios b player b.continents with
  | error e => rw [hcp] at hok; simp [Bind.bind, Except.bind] at hok
  | ok pr =>
    rw [hcp] at hok
    simp only [Bind.bind, Except.bind, Pure.pure, Except.pure, Except.ok.injEq,
      Prod.mk.injEq] at hok
    rw [← hok.1]
    exact contPrios_lookup b player b.continents pr cname c O hcp hfind hO he

/-- Four-territory single-continent board of the spec's priority scenario:
bonus 5, one (floored) entry point, all four members owned by "P". -/
def scenarioBoard : GameBoard :=
  { territories := [("C1", ⟨some "P", 1⟩), ("C2", ⟨some "P", 1⟩),
      ("C3", ⟨some "P", 1⟩), ("C4", ⟨some "P", 1⟩)]
    continents := [("K", ⟨["C1", "C2", "C3", "C4"], 5⟩)]
    adjacencies := [] }

/-- Witness for C3: on the scenario board the stored priority of the
continent is exactly 6.6 = 33/5. -/
theorem strategic_priority_formula_witness :
    getContinent scenarioBoard "K" = some ⟨["C1", "C2", "C3", "C4"], 5⟩ ∧
    countOwned scenarioBoard "P" ["C1", "C2", "C3", "C4"] = .ok 4 ∧
    calculate_strategic_values scenarioBoard "P" =
      .ok ([("K", 33/5)], [("C1", 198/25), ("C2", 198/25), ("C3", 198/25),
        ("C4", 198/25)]) ∧
    lookupD [("K", (33 : ℚ)/5)] "K" 1 = 33/5 := by
  have hc : getContinent scenarioBoard "K" = some ⟨["C1", "C2", "C3", "C4"], 5⟩ := by
    simp [getContinent, scenarioBoard, List.find?]
  have hO : countOwned scenarioBoard "P" ["C1", "C2", "C3", "C4"] = .ok 4 := by
    simp [countOwned, getTerritory, scenarioBoard, List.find?, Bind.bind,
      Except.bind, Pure.pure, Except.pure]
  have hok : calculate_strategic_values scenarioBoard "P" =
      .ok ([("K", 33/5)], [("C1", 198/25), ("C2", 198/25), ("C3", 198/25),
        ("C4", 198/25)]) := by
    simp [calculate_strategic_values, contPrios, countOwned,
      count_continent_entry_points, getContinent, getTerritory, getAdj,
      get_continent_for_territory, is_continent_gateway, terrVals, lookupD,
      scenarioBoard, List.find?, List.filter, List.any, Bind.bind, Except.bind,
      Pure.pure, Except.pure, min_def, max_def]
    norm_num
  have hfin := strategic_priority_formula scenarioBoard "P" [("K", 33/5)]
    [("C1", 198/25), ("C2", 198/25), ("C3", 198/25), ("C4", 198/25)]
    "K" ⟨["C1", "C2", "C3", "C4"], 5⟩ 4 hok hc hO
  refine ⟨hc, hO, hok, ?_⟩
  rw [hfin]
  have hE : count_continent_entry_points scenarioBoard "K" = 1 := by
    simp [count_continent_entry_points, getContinent, scenarioBoard, List.find?,
      List.filter, List.any, getAdj]
  rw [hE]
  norm_num

/-- Two-territory board for the attack-target witness: "A" (5 armies, owned)
borders the enemy territory "C" (1 army). -/
def attackBoard : GameBoard :=
  { territories := [("A", ⟨some "P", 5⟩), ("C", ⟨some "Q", 1⟩)]
    continents := []
    adjacencies := [("A", ["C"]), ("C", ["A"])] }

/-- Witness for C4: with the base score function, the board yields the single
candidate ("A", "C", 3) and the invariants hold for it. -/
theorem attack_targets_sound_witness :
    (∀ x ∈ ["A"], (getTerritory attackBoard x).isSome) ∧
    get_attack_targets (fun f t => calculate_attack_score [] none attackBoard "P" f t)
      attackBoard "P" ["A"] = .ok [("A", "C", 3)] ∧
    (∀ trip ∈ [("A", "C", (3 : Int))], ∃ ft tt,
      getTerritory attackBoard trip.1 = some ft ∧ 2 ≤ ft.armies ∧
      trip.2.1 ∈ getAdj attackBoard trip.1 ∧
      getTerritory attackBoard trip.2.1 = some tt ∧ tt.owner ≠ some "P" ∧
      trip.2.2 = min 3 (ft.armies - 1) ∧ 1 ≤ trip.2.2 ∧ trip.2.2 ≤ 3) := by
  have hex : ∀ x ∈ ["A"], (getTerritory attackBoard x).isSome := by
    intro x hx
    simp only [List.mem_singleton] at hx
    subst hx
    simp [getTerritory, attackBoard, List.find?]
  have heval : get_attack_targets
      (fun f t => calculate_attack_score [] none attackBoard "P" f t)
      attackBoard "P" ["A"] = .ok [("A", "C", 3)] := by
    simp [get_attack_targets, attackCandsOuter, attackCandsInner,
      calculate_attack_score, captureValue, get_continent_for_territory,
      getTerritory, getAdj, lookupD, targetMatch, attackBoard, List.find?,
      sortDescBy, insertDescBy, Bind.bind, Except.bind, Pure.pure, Except.pure,
      min_def, max_def]
  exact ⟨hex, heval, attack_targets_sound _ attackBoard "P" ["A"] hex _ heval⟩

theorem lookupD_pos {m : List (String × ℚ)} {k : String} {d : ℚ}
    (hm : ∀ p ∈ m, 0 < p.2) (hd : 0 < d) : 0 < lookupD m k d := by
  unfold lookupD
  cases hf : m.find? (fun p => p.1 = k) with
  | none => exact hd
  | some pr => exact hm pr (List.mem_of_find?_eq_some hf)

theorem contPrios_pos (b : GameBoard) (player : String) :
    ∀ l prios, contPrios b player l = .ok prios →
    (∀ p ∈ l, 0 < p.2.bonus_armies ∧ p.2.territories.length ≤ 15) →
    (∀ p ∈ l, (getContinent b p.1).isSome) →
    ∀ q ∈ prios, 0 < q.2 := by
  intro l
  induction l with
  | nil =>
    intro prios hok _ _ q hq
    simp only [contPrios, Except.ok.injEq] at hok
    subst hok
    cases hq
  | cons p rest ih =>
    intro prios hok hb hkey q hq
    obtain ⟨cn0, c0⟩ := p
    simp only [contPrios] at hok
    cases hO0 : countOwned b player c0.territories with
    | error e => rw [hO0] at hok; simp [Bind.bind, Except.bind] at hok
    | ok o0 =>
      rw [hO0] at hok
      simp only [Bind.bind, Except.bind] at hok
      have hkey0 : (getContinent b cn0).isSome := hkey (cn0, c0) (List.mem_cons_self _ _)
      have he : 0 < count_continent_entry_points b cn0 := by
        unfold count_continent_entry_points
        cases hg : getContinent b cn0 with
        | none => rw [hg] at hkey0; cases hkey0
        | some cc => exact Nat.lt_of_lt_of_le Nat.zero_lt_one (le_max_left 1 _)
      rw [if_pos he] at hok
      by_cases hT : c0.territories.length = 0
      · rw [if_pos hT] at hok
        simp [Bind.bind, Except.bind] at hok
      · rw [if_neg hT] at hok
        cases hr : contPrios b player rest with
        | error e => rw [hr] at hok; simp [Bind.bind, Except.bind] at hok
        | ok pr =>
          rw [hr] at hok
          simp only [Bind.bind, Except.bind, Pure.pure, Except.pure,
            Except.ok.injEq] at hok
          subst hok
          rcases List.mem_cons.mp hq with hq1 | hq1
          · subst hq1
            obtain ⟨hbon, hlen⟩ := hb (cn0, c0) (List.mem_cons_self _ _)
            have hx1 : (0 : ℚ) < (c0.bonus_armies : ℚ) / (count_continent_entry_points b cn0 : ℚ) := by
              apply div_pos
              · exact_mod_cast hbon
              · exact_mod_cast he
            have hx2 : (0 : ℚ) < ((o0 : ℚ) / (c0.territories.length : ℚ)) ^ 2 + 1/10 := by
              have := sq_nonneg ((o0 : ℚ) / (c0.territories.length : ℚ))
              nlinarith
            have hx3 : (0 : ℚ) < 1 + ((6 : ℚ) - (c0.territories.length : ℚ)) * (1/10) := by
              have hc : (c0.territories.length : ℚ) ≤ 15 := by exact_mod_cast hlen
              linarith
            exact mul_pos (mul_pos hx1 hx2) hx3
          · exact ih pr hr (fun x hx => hb x (List.mem_cons_of_mem _ hx))
              (fun x hx => hkey x (List.mem_cons_of_mem _ hx)) q hq1

theorem terrVals_pos (b : GameBoard) (prios : List (String × ℚ))
    (hp : ∀ q ∈ prios, 0 < q.2) : ∀ q ∈ terrVals b prios, 0 < q.2 := by
  intro q hq
  obtain ⟨p, _, rfl⟩ := List.mem_map.mp hq
  have h1 : (0 : ℚ) < (match get_continent_for_territory b p.1 with
      | some c => 1 * (lookupD prios c 1 * (3/2))
      | none => 1) := by
    cases hgc : get_continent_for_territory b p.1 with
    | none => simp only [hgc]; norm_num
    | some c =>
      have := lookupD_pos hp (k := c) (by norm_num : (0:ℚ) < 1)
      simp only [hgc]
      exact mul_pos one_pos (mul_pos this (by norm_num))
  have h2 : (0 : ℚ) < max (4/5) (1 + (((getAdj b p.1).length : ℚ) - 3) * (1/10)) :=
    lt_of_lt_of_le (by norm_num) (le_max_left _ _)
  simp only
  split <;> positivity

theorem mapAdj_pos {g : String × ℚ → ℚ} (vals : List (String × ℚ))
    (hg : ∀ p ∈ vals, 0 < p.2 → 0 < g p) (hv : ∀ p ∈ vals, 0 < p.2) :
    ∀ q ∈ vals.map (fun p => (p.1, g p)), 0 < q.2 := by
  intro q hq
  obtain ⟨p, hp, rfl⟩ := List.mem_map.mp hq
  exact hg p hp (hv p hp)

theorem securityFactor_nonneg (b : GameBoard) (player : String) (t : String) :
    0 ≤ securityFactor b player t := by
  unfold securityFactor
  by_cases h : (getAdj b t).length = 0
  · simp [h]
  · simp only [h, if_false]
    positivity

/-- C2 (amended): on a board where every continent has a positive bonus and
at most 15 member territories, every completed run of
`calculate_strategic_values` — for the base engine and for every strategy
variant — stores a strictly positive value for every territory. -/
theorem territory_values_positive (v : Strat) (b : GameBoard) (player : String)
    (pv : List (String × ℚ) × List (String × ℚ))
    (hb : ∀ p ∈ b.continents, 0 < p.2.bonus_armies ∧ p.2.territories.length ≤ 15)
    (hok : csvVariant v b player = .ok pv) :
    ∀ q ∈ pv.2, 0 < q.2 := by
  unfold csvVariant at hok
  cases hcsv : calculate_strategic_values b player with
  | error e => rw [hcsv] at hok; simp [Bind.bind, Except.bind] at hok
  | ok pv0 =>
    rw [hcsv] at hok
    simp only [Bind.bind, Except.bind, Pure.pure, Except.pure, Except.ok.injEq] at hok
    have hkey : ∀ p ∈ b.continents, (getContinent b p.1).isSome := by
      intro p hp
      unfold getContinent
      rw [Option.isSome_map']
      rw [List.find?_isSome]
      exact ⟨p, hp, by simp⟩
    have hprios : ∀ q ∈ pv0.1, 0 < q.2 := by
      unfold calculate_strategic_values at hcsv
      cases hcp : contPrios b player b.continents with
      | error e => rw [hcp] at hcsv; simp [Bind.bind, Except.bind] at hcsv
      | ok pr =>
        rw [hcp] at hcsv
        simp only [Bind.bind, Except.bind, Pure.pure, Except.pure,
          Except.ok.injEq] at hcsv
        rw [← hcsv]
        exact contPrios_pos b player b.continents pr hcp hb hkey
    have hvals0 : ∀ q ∈ pv0.2, 0 < q.2 := by
      unfold calculate_strategic_values at hcsv
      cases hcp : contPrios b player b.continents with
      | error e => rw [hcp] at hcsv; simp [Bind.bind, Except.bind] at hcsv
      | ok pr =>
        rw [hcp] at hcsv
        simp only [Bind.bind, Except.bind, Pure.pure, Except.pure,
          Except.ok.injEq] at hcsv
        rw [← hcsv]
        exact terrVals_pos b pr (by rw [← hcsv] at hprios; exact hprios)
    subst hok
    have haggro : ∀ vals, (∀ q ∈ vals, 0 < q.2) →
        ∀ q ∈ aggressiveVals b vals, 0 < q.2 := by
      intro vals hv
      refine mapAdj_pos vals ?_ hv
      intro p _ hp
      have h0 : (0 : ℚ) ≤ ((getAdj b p.1).length : ℚ) := Nat.cast_nonneg _
      nlinarith
    have hdef : ∀ vals, (∀ q ∈ vals, 0 < q.2) →
        ∀ q ∈ defensiveVals b vals, 0 < q.2 := by
      intro vals hv
      refine mapAdj_pos vals ?_ hv
      intro p _ hp
      split <;> nlinarith
    cases v with
    | base => exact hvals0
    | balanced => exact hvals0
    | opportunistic => exact hvals0
    | aggressive => exact haggro pv0.2 hvals0
    | defensive => exact hdef pv0.2 hvals0
    | napoleon =>
      refine mapAdj_pos _ ?_ (haggro pv0.2 hvals0)
      intro p _ hp
      split <;> nlinarith
    | genghis =>
      refine mapAdj_pos _ ?_ hvals0
      intro p _ hp
      have h0 : (0 : ℚ) ≤ ((getAdj b p.1).length : ℚ) := Nat.cast_nonneg _
      nlinarith
    | alexander =>
      refine mapAdj_pos _ ?_ (haggro pv0.2 hvals0)
      intro p _ hp
      split <;> nlinarith
    | sunTzu =>
      refine mapAdj_pos _ ?_ hvals0
      intro p _ hp
      have h0 : (0 : ℚ) ≤ ((getAdj b p.1).length : ℚ) := Nat.cast_nonneg _
      split <;> nlinarith
    | hannibal =>
      refine mapAdj_pos _ ?_ hvals0
      intro p _ hp
      split <;> nlinarith
    | elizabeth =>
      refine mapAdj_pos _ ?_ (hdef pv0.2 hvals0)
      intro p _ hp
      have h0 : (0 : ℚ) ≤ securityFactor b player p.1 := securityFactor_nonneg b player p.1
      nlinarith

/-- One-continent board with bonus 0: the stored territory value degenerates
to 0. -/
def zeroBonusBoard : GameBoard :=
  { territories := [("T0", ⟨some "Q", 1⟩)]
    continents := [("Z", ⟨["T0"], 0⟩)]
    adjacencies := [] }

/-- Counterexample for C2 as stated: on a board state whose only continent
has bonus 0, `calculate_strategic_values` completes and stores the value 0
(not strictly positive) for the territory. -/
theorem territory_values_positive_cex :
    csvVariant .base zeroBonusBoard "P" = .ok ([("Z", 0)], [("T0", 0)]) ∧
    ¬ (∀ q ∈ [("T0", (0 : ℚ))], 0 < q.2) := by
  constructor
  · simp [csvVariant, calculate_strategic_values, contPrios, countOwned,
      count_continent_entry_points, getContinent, getTerritory, getAdj,
      get_continent_for_territory, is_continent_gateway, terrVals, lookupD,
      zeroBonusBoard, List.find?, List.filter, List.any, Bind.bind, Except.bind,
      Pure.pure, Except.pure, min_def, max_def]
  · intro h
    exact absurd (h ("T0", 0) (List.mem_singleton.mpr rfl)) (lt_irrefl 0)

/-- Witness for C2 (amended) on the scenario board (bonus 5, four members). -/
theorem territory_values_positive_witness :
    (∀ p ∈ scenarioBoard.continents,
      0 < p.2.bonus_armies ∧ p.2.territories.length ≤ 15) ∧
    csvVariant .base scenarioBoard "P" =
      .ok ([("K", 33/5)], [("C1", 198/25), ("C2", 198/25), ("C3", 198/25),
        ("C4", 198/25)]) ∧
    (∀ q ∈ [("C1", (198 : ℚ)/25), ("C2", (198 : ℚ)/25), ("C3", (198 : ℚ)/25),
      ("C4", (198 : ℚ)/25)], 0 < q.2) := by
  have hb : ∀ p ∈ scenarioBoard.continents,
      0 < p.2.bonus_armies ∧ p.2.territories.length ≤ 15 := by
    intro p hp
    simp only [scenarioBoard, List.mem_singleton] at hp
    subst hp
    exact ⟨by norm_num, by norm_num⟩
  have hok : csvVariant .base scenarioBoard "P" =
      .ok ([("K", 33/5)], [("C1", 198/25), ("C2", 198/25), ("C3", 198/25),
        ("C4", 198/25)]) := by
    simp [csvVariant, calculate_strategic_values, contPrios, countOwned,
      count_continent_entry_points, getContinent, getTerritory, getAdj,
      get_continent_for_territory, is_continent_gateway, terrVals, lookupD,
      scenarioBoard, List.find?, List.filter, List.any, Bind.bind, Except.bind,
      Pure.pure, Except.pure, min_def, max_def]
    norm_num
  exact ⟨hb, hok, territory_values_positive .base scenarioBoard "P" _ hb hok⟩

theorem countOwned_error (b : GameBoard) (player : String) :
    ∀ ts t, t ∈ ts → getTerritory b t = none →
    countOwned b player ts = .error () := by
  intro ts
  induction ts with
  | nil => intro t ht _; cases ht
  | cons a rest ih =>
    intro t ht hmiss
    rcases List.mem_cons.mp ht with h | h
    · subst h
      simp only [countOwned, hmiss]
    · cases ha : getTerritory b a with
      | none => simp only [countOwned, ha]
      | some tt =>
        simp only [countOwned, ha, ih t h hmiss]
        rfl

theorem contPrios_error (b : GameBoard) (player : String) :
    ∀ l cn c t, (cn, c) ∈ l → t ∈ c.territories → getTerritory b t = none →
    contPrios b player l = .error () := by
  intro l
  induction l with
  | nil => intro cn c t hmem _ _; cases hmem
  | cons p rest ih =>
    intro cn c t hmem ht hmiss
    obtain ⟨cn0, c0⟩ := p
    rcases List.mem_cons.mp hmem with h | h
    · have hcc : c0 = c := congrArg Prod.snd h.symm
      subst hcc
      simp only [contPrios, countOwned_error b player c0.territories t ht hmiss]
      rfl
    · simp only [contPrios]
      cases hO0 : countOwned b player c0.territories with
      | error e => rfl
      | ok o0 =>
        simp only [Bind.bind, Except.bind]
        cases hv0 : (if 0 < count_continent_entry_points b cn0 then
            (if c0.territories.length = 0 then (.error () : Except Unit ℚ)
             else .ok (((c0.bonus_armies : ℚ) / (count_continent_entry_points b cn0 : ℚ)) *
               (((o0 : ℚ) / (c0.territories.length : ℚ)) ^ 2 + 1/10)))
          else .ok 0) with
        | error e => rfl
        | ok v0 =>
          rw [ih cn c t h ht hmiss]

theorem csv_error (b : GameBoard) (player : String)
    (h : ∃ p ∈ b.continents, ∃ t ∈ p.2.territories, getTerritory b t = none) :
    calculate_strategic_values b player = .error () := by
  obtain ⟨p, hp, t, ht, hm⟩ := h
  unfold calculate_strategic_values
  rw [contPrios_error b player b.continents p.1 p.2 t (by simpa using hp) ht hm]
  rfl

theorem countOwned_ok (b : GameBoard) (player : String) :
    ∀ ts, (∀ t ∈ ts, (getTerritory b t).isSome) →
    ∃ n, countOwned b player ts = .ok n := by
  intro ts
  induction ts with
  | nil => intro _; exact ⟨0, rfl⟩
  | cons a rest ih =>
    intro h
    obtain ⟨n, hn⟩ := ih (fun t ht => h t (List.mem_cons_of_mem a ht))
    cases ha : getTerritory b a with
    | none =>
      have := h a (List.mem_cons_self a rest)
      rw [ha] at this
      cases this
    | some tt =>
      refine ⟨if tt.owner = some player then n + 1 else n, ?_⟩
      simp only [countOwned, ha, hn]
      rfl

theorem contPrios_ok (b : GameBoard) (player : String) :
    ∀ l, (∀ p ∈ l, p.2.territories ≠ [] ∧
      ∀ t ∈ p.2.territories, (getTerritory b t).isSome) →
    ∃ pr, contPrios b player l = .ok pr := by
  intro l
  induction l with
  | nil => intro _; exact ⟨[], rfl⟩
  | cons p rest ih =>
    intro h
    obtain ⟨cn0, c0⟩ := p
    obtain ⟨hne, hmem⟩ := h (cn0, c0) (List.mem_cons_self _ _)
    obtain ⟨o0, ho0⟩ := countOwned_ok b player c0.territories hmem
    obtain ⟨pr, hpr⟩ := ih (fun q hq => h q (List.mem_cons_of_mem _ hq))
    have hT : c0.territories.length ≠ 0 := by
      intro hc
      exact hne (List.length_eq_zero.mp hc)
    by_cases he : 0 < count_continent_entry_points b cn0
    · refine ⟨(cn0, (((c0.bonus_armies : ℚ) / (count_continent_entry_points b cn0 : ℚ)) *
          (((o0 : ℚ) / (c0.territories.length : ℚ)) ^ 2 + 1/10)) *
          (1 + ((6 : ℚ) - (c0.territories.length : ℚ)) * (1/10))) :: pr, ?_⟩
      simp only [contPrios, ho0, Bind.bind, Except.bind, if_pos he, if_neg hT, hpr]
      rfl
    · refine ⟨(cn0, 0 * (1 + ((6 : ℚ) - (c0.territories.length : ℚ)) * (1/10))) :: pr, ?_⟩
      simp only [contPrios, ho0, Bind.bind, Except.bind, if_neg he, hpr]
      rfl

theorem armies_ne_of_getTerritory {b : GameBoard} {t : String} {tt : Territory}
    (hb : ∀ p ∈ b.territories, p.2.armies ≠ -1)
    (h : getTerritory b t = some tt) : tt.armies ≠ -1 := by
  unfold getTerritory at h
  cases hf : b.territories.find? (fun p => p.1 = t) with
  | none => rw [hf] at h; cases h
  | some p =>
    rw [hf] at h
    have hp2 : p.2 = tt := by simpa using h
    rw [← hp2]
    exact hb p (List.mem_of_find?_eq_some hf)

theorem getContinent_mem {b : GameBoard} {c : String} {cc : Continent}
    (h : getContinent b c = some cc) : ∃ k, (k, cc) ∈ b.continents := by
  unfold getContinent at h
  cases hf : b.continents.find? (fun p => p.1 = c) with
  | none => rw [hf] at h; cases h
  | some p =>
    rw [hf] at h
    have hp2 : p.2 = cc := by simpa using h
    exact ⟨p.1, by rw [← hp2]; exact List.mem_of_find?_eq_some hf⟩

theorem completion_go_ok (b : GameBoard) (player : String) :
    ∀ ts, (∀ t ∈ ts, (getTerritory b t).isSome) →
    ∃ l, get_continent_completion_territories.go b player ts = .ok l ∧
      ∀ a ∈ l, (getTerritory b a).isSome := by
  intro ts
  induction ts with
  | nil => exact fun _ => ⟨[], rfl, fun a ha => absurd ha (List.not_mem_nil a)⟩
  | cons t rest ih =>
    intro h
    obtain ⟨l, hl, hprop⟩ := ih (fun a ha => h a (List.mem_cons_of_mem _ ha))
    cases ht : getTerritory b t with
    | none =>
      have := h t (List.mem_cons_self _ _)
      rw [ht] at this
      cases this
    | some tt =>
      refine ⟨if tt.owner ≠ some player then t :: l else l, ?_, ?_⟩
      · simp only [get_continent_completion_territories.go, ht, hl, Bind.bind,
          Except.bind, Pure.pure, Except.pure]
      · intro a ha
        split at ha
        · rcases List.mem_cons.mp ha with rfl | ha'
          · simp [ht]
          · exact hprop a ha'
        · exact hprop a ha

theorem completion_ok (b : GameBoard) (player : String) (c : String)
    (hwf : ∀ p ∈ b.continents, ∀ t ∈ p.2.territories, (getTerritory b t).isSome) :
    ∃ l, get_continent_completion_territories b c player = .ok l ∧
      ∀ a ∈ l, (getTerritory b a).isSome := by
  unfold get_continent_completion_territories
  cases hg : getContinent b c with
  | none => exact ⟨[], rfl, fun a ha => absurd ha (List.not_mem_nil a)⟩
  | some cc =>
    obtain ⟨k, hk⟩ := getContinent_mem hg
    exact completion_go_ok b player cc.territories (fun t ht => hwf (k, cc) hk t ht)

theorem bordersNeeded_ok (b : GameBoard) (player : String) (needed : List String)
    (hn : ∀ a ∈ needed, (getTerritory b a).isSome) :
    ∀ adj, ∃ r, bordersNeeded b player needed adj = .ok r := by
  intro adj
  induction adj with
  | nil => exact ⟨false, rfl⟩
  | cons a rest ih =>
    by_cases ha : a ∈ needed
    · cases hg : getTerritory b a with
      | none =>
        have := hn a ha
        rw [hg] at this
        cases this
      | some tt =>
        by_cases ho : tt.owner ≠ some player
        · exact ⟨true, by simp only [bordersNeeded, if_pos ha, hg, if_pos ho]⟩
        · obtain ⟨r, hr⟩ := ih
          exact ⟨r, by simp only [bordersNeeded, if_pos ha, hg, if_neg ho, hr]⟩
    · obtain ⟨r, hr⟩ := ih
      exact ⟨r, by simp only [bordersNeeded, if_neg ha, hr]⟩

theorem captureValue_ok (vals : List (String × ℚ)) (target : Option String)
    (b : GameBoard) (player : String) (t : String)
    (hwf : ∀ p ∈ b.continents, ∀ m ∈ p.2.territories, (getTerritory b m).isSome) :
    ∃ cv, captureValue vals target b player t = .ok cv := by
  cases hc : get_continent_for_territory b t with
  | none =>
    refine ⟨if targetMatch target (none : Option String) then lookupD vals t 1 * 2
      else lookupD vals t 1, ?_⟩
    unfold captureValue
    rw [hc]
    rfl
  | some c =>
    obtain ⟨l, hl, _⟩ := completion_ok b player c hwf
    refine ⟨if l = [t] then (if targetMatch target (some c) then lookupD vals t 1 * 2
        else lookupD vals t 1) * 3
      else (if targetMatch target (some c) then lookupD vals t 1 * 2
        else lookupD vals t 1), ?_⟩
    unfold captureValue
    simp only [hc]
    rw [hl]
    rfl

theorem oppLoop_ok (vals : List (String × ℚ)) (target : Option String)
    (b : GameBoard) (player : String) (srcArmies : Int)
    (hwf : ∀ p ∈ b.continents, ∀ m ∈ p.2.territories, (getTerritory b m).isSome) :
    ∀ adj acc, ∃ s, oppLoop vals target b player srcArmies adj acc = .ok s := by
  intro adj
  induction adj with
  | nil => exact fun acc => ⟨acc, rfl⟩
  | cons a rest ih =>
    intro acc
    cases hg : getTerritory b a with
    | none =>
      obtain ⟨s, hs⟩ := ih acc
      exact ⟨s, by simp only [oppLoop, hg, hs]⟩
    | some tt =>
      by_cases ho : tt.owner = some player
      · obtain ⟨s, hs⟩ := ih acc
        exact ⟨s, by simp only [oppLoop, hg, if_pos ho, hs]⟩
      · by_cases hadv : (3/2 : ℚ) ≤ (if 0 < tt.armies then
            (srcArmies : ℚ) / (tt.armies : ℚ) else (srcArmies : ℚ))
        · obtain ⟨cv, hcv⟩ := captureValue_ok vals target b player a hwf
          obtain ⟨s, hs⟩ := ih (acc + ((if 0 < tt.armies then
            (srcArmies : ℚ) / (tt.armies : ℚ) else (srcArmies : ℚ)) - 1) * cv)
          exact ⟨s, by
            simp only [oppLoop, hg, if_neg ho, if_pos hadv, Bind.bind,
              Except.bind, hcv, hs]⟩
        · obtain ⟨s, hs⟩ := ih acc
          exact ⟨s, by simp only [oppLoop, hg, if_neg ho, if_neg hadv, hs]⟩

theorem oppScore_ok (vals : List (String × ℚ)) (target : Option String)
    (b : GameBoard) (player : String) (src : String)
    (hwf : ∀ p ∈ b.continents, ∀ m ∈ p.2.territories, (getTerritory b m).isSome) :
    ∃ s, calculate_attack_opportunity_score vals target b player src = .ok s := by
  cases hft : getTerritory b src with
  | none => exact ⟨0, by unfold calculate_attack_opportunity_score; rw [hft]⟩
  | some ft =>
    by_cases hg : ft.owner ≠ some player ∨ ft.armies ≤ 1
    · refine ⟨0, ?_⟩
      unfold calculate_attack_opportunity_score
      simp only [hft, if_pos hg]
    · obtain ⟨s, hs⟩ := oppLoop_ok vals target b player ft.armies hwf (getAdj b src) 0
      refine ⟨min 3 s, ?_⟩
      unfold calculate_attack_opportunity_score
      simp only [hft, if_neg hg]
      rw [hs]
      rfl

theorem reinfScore_ok (vals : List (String × ℚ)) (target : Option String)
    (b : GameBoard) (player : String) (t : String) (terr : Territory)
    (hwf : ∀ p ∈ b.continents, ∀ m ∈ p.2.territories, (getTerritory b m).isSome)
    (harm : terr.armies ≠ -1) :
    ∃ s, reinfScore vals target b player t terr = .ok s := by
  have haf : ¬ ((terr.armies : ℚ) + 1) = 0 := by
    intro hcon
    apply harm
    have h1 : (terr.armies : ℚ) = -1 := by linarith
    exact_mod_cast h1
  obtain ⟨opp, hopp⟩ := oppScore_ok vals target b player t hwf
  cases hres : reinfScore vals target b player t terr with
  | ok s => exact ⟨s, rfl⟩
  | error e =>
    exfalso
    unfold reinfScore at hres
    rw [if_neg haf] at hres
    simp only [Bind.bind, Except.bind] at hres
    cases hc : get_continent_for_territory b t with
    | none =>
      simp only [hc, Pure.pure, Except.pure, Except.bind, hopp] at hres
      cases hres
    | some c =>
      simp only [hc] at hres
      cases hgc : getContinent b c with
      | none =>
        simp only [hgc, Pure.pure, Except.pure, Except.bind, hopp] at hres
        cases hres
      | some cc =>
        obtain ⟨l, hl, hls⟩ := completion_ok b player c hwf
        simp only [hgc, hl, Except.bind] at hres
        by_cases hlen : 1 ≤ l.length ∧ l.length ≤ 3
        · obtain ⟨r, hr⟩ := bordersNeeded_ok b player l hls (getAdj b t)
          rw [if_pos hlen] at hres
          simp only [hr, Except.bind, Pure.pure, Except.pure, hopp] at hres
          cases hres
        · rw [if_neg hlen] at hres
          simp only [Pure.pure, Except.pure, Except.bind, hopp] at hres
          cases hres

theorem scoreLoop_ok (vals : List (String × ℚ)) (target : Option String)
    (b : GameBoard) (player : String)
    (hwf : ∀ p ∈ b.continents, ∀ m ∈ p.2.territories, (getTerritory b m).isSome)
    (harm : ∀ p ∈ b.territories, p.2.armies ≠ -1) :
    ∀ ts acc, ∃ out, scoreLoop vals target b player ts acc = .ok out := by
  intro ts
  induction ts with
  | nil => exact fun acc => ⟨acc, rfl⟩
  | cons t rest ih =>
    intro acc
    cases hg : getTerritory b t with
    | none =>
      obtain ⟨out, hout⟩ := ih acc
      exact ⟨out, by simp only [scoreLoop, hg, hout]⟩
    | some terr =>
      obtain ⟨s, hs⟩ := reinfScore_ok vals target b player t terr hwf
        (armies_ne_of_getTerritory harm hg)
      obtain ⟨out, hout⟩ := ih (dictInsert t s acc)
      exact ⟨out, by simp only [scoreLoop, hg, Bind.bind, Except.bind, hs, hout]⟩

theorem gpcc_go_ok (b : GameBoard) (player : String) :
    ∀ l, (∀ p ∈ l, ∀ t ∈ p.2.territories, (getTerritory b t).isSome) →
    ∃ c, get_player_continent_control.go b player l = .ok c := by
  intro l
  induction l with
  | nil => exact fun _ => ⟨[], rfl⟩
  | cons p rest ih =>
    intro h
    obtain ⟨cn, c⟩ := p
    obtain ⟨r, hr⟩ := ih (fun q hq => h q (List.mem_cons_of_mem _ hq))
    by_cases hlen : c.territories.length = 0
    · exact ⟨(cn, 0) :: r, by
        simp only [get_player_continent_control.go, if_pos hlen, Bind.bind,
          Except.bind, hr, Pure.pure, Except.pure]⟩
    · obtain ⟨o, ho⟩ := countOwned_ok b player c.territories
        (h (cn, c) (List.mem_cons_self _ _))
      exact ⟨(cn, (o : ℚ) / (c.territories.length : ℚ)) :: r, by
        simp only [get_player_continent_control.go, if_neg hlen, Bind.bind,
          Except.bind, ho, hr, Pure.pure, Except.pure]⟩

theorem gpcc_ok (b : GameBoard) (player : String)
    (hwf : ∀ p ∈ b.continents, ∀ t ∈ p.2.territories, (getTerritory b t).isSome) :
    ∃ c, get_player_continent_control b player = .ok c :=
  gpcc_go_ok b player b.continents hwf

theorem csvVariant_ok (v : Strat) (b : GameBoard) (player : String)
    (h : ∃ pv, calculate_strategic_values b player = .ok pv) :
    ∃ pv2, csvVariant v b player = .ok pv2 := by
  obtain ⟨pv, hpv⟩ := h
  cases hres : csvVariant v b player with
  | ok x => exact ⟨x, rfl⟩
  | error e =>
    exfalso
    unfold csvVariant at hres
    simp only [Bind.bind, Except.bind, hpv, Pure.pure, Except.pure] at hres
    cases hres

theorem choose_target_ok (prios : List (String × ℚ)) (b : GameBoard)
    (player : String) (rs : Nat → ℚ)
    (hwf : ∀ p ∈ b.continents, ∀ t ∈ p.2.territories, (getTerritory b t).isSome) :
    ∃ tg, choose_target_continent prios b player rs = .ok tg := by
  obtain ⟨c, hc⟩ := gpcc_ok b player hwf
  cases hres : choose_target_continent prios b player rs with
  | ok tg => exact ⟨tg, rfl⟩
  | error e =>
    exfalso
    unfold choose_target_continent at hres
    simp only [Bind.bind, Except.bind, hc, Pure.pure, Except.pure] at hres
    cases hres

theorem reinfCore_ok (v : Strat) (b : GameBoard) (player : String)
    (owned : List String) (rs : Nat → ℚ)
    (hwf : ∀ p ∈ b.continents, p.2.territories ≠ [] ∧
      ∀ t ∈ p.2.territories, (getTerritory b t).isSome)
    (harm : ∀ p ∈ b.territories, p.2.armies ≠ -1) :
    ∃ out, reinfCore v b player owned rs = .ok out := by
  have hwf2 : ∀ p ∈ b.continents, ∀ t ∈ p.2.territories, (getTerritory b t).isSome :=
    fun p hp => (hwf p hp).2
  obtain ⟨pr, hpr⟩ := contPrios_ok b player b.continents hwf
  have hcsv : calculate_strategic_values b player = .ok (pr, terrVals b pr) := by
    unfold calculate_strategic_values
    rw [hpr]
    rfl
  obtain ⟨pv, hpv⟩ := csvVariant_ok v b player ⟨_, hcsv⟩
  obtain ⟨tg, htg⟩ := choose_target_ok pv.1 b player rs hwf2
  cases hres : reinfCore v b player owned rs with
  | ok out => exact ⟨out, rfl⟩
  | error e =>
    exfalso
    unfold reinfCore at hres
    simp only [Bind.bind, Except.bind, hpv, htg] at hres
    by_cases hfl : owned.filter (fun t => is_front_line_territory b player t) = []
    · rw [if_pos hfl] at hres
      simp only [Pure.pure, Except.pure] at hres
      cases hres
    · obtain ⟨scores, hscores⟩ := scoreLoop_ok pv.2 tg b player hwf2 harm
        (owned.filter (fun t => is_front_line_territory b player t)) []
      rw [if_neg hfl] at hres
      simp only [Bind.bind, Except.bind, hscores, Pure.pure, Except.pure] at hres
      cases hres

theorem reinf_ok (v : Strat) (b : GameBoard) (player : String)
    (owned : List String) (rs : Nat → ℚ)
    (hwf : ∀ p ∈ b.continents, p.2.territories ≠ [] ∧
      ∀ t ∈ p.2.territories, (getTerritory b t).isSome)
    (harm : ∀ p ∈ b.territories, p.2.armies ≠ -1) :
    ∃ out, get_best_reinforcement_territories v b player owned rs = .ok out := by
  have hwf2 : ∀ p ∈ b.continents, ∀ t ∈ p.2.territories, (getTerritory b t).isSome :=
    fun p hp => (hwf p hp).2
  obtain ⟨base, hbase⟩ := reinfCore_ok v b player owned rs hwf harm
  obtain ⟨ctrl, hctrl⟩ := gpcc_ok b player hwf2
  cases hres : get_best_reinforcement_territories v b player owned rs with
  | ok out => exact ⟨out, rfl⟩
  | error e =>
    exfalso
    unfold get_best_reinforcement_territories at hres
    simp only [Bind.bind, Except.bind, hbase] at hres
    cases v <;>
      simp only [hctrl, Except.bind, Pure.pure, Except.pure] at hres <;>
      cases hres

/-- C6 (amended): a continent member missing from the territory table makes
`calculate_strategic_values` — and hence `get_best_reinforcement_territories`,
which recomputes it first — raise (modelled `.error ()`) instead of skipping.
When every continent is nonempty and all members exist,
`calculate_strategic_values` completes; when additionally no territory record
holds exactly -1 armies (the `2.0 / (armies + 1)` army factor of line 181
divides by zero there), `get_best_reinforcement_territories` completes too. -/
theorem missing_lookup_raises (v : Strat) (b : GameBoard) (player : String)
    (owned : List String) (rs : Nat → ℚ) :
    ((∃ p ∈ b.continents, ∃ t ∈ p.2.territories, getTerritory b t = none) →
      calculate_strategic_values b player = .error () ∧
      get_best_reinforcement_territories v b player owned rs = .error ()) ∧
    ((∀ p ∈ b.continents, p.2.territories ≠ [] ∧
        ∀ t ∈ p.2.territories, (getTerritory b t).isSome) →
      (∃ pv, calculate_strategic_values b player = .ok pv) ∧
      ((∀ p ∈ b.territories, p.2.armies ≠ -1) →
        ∃ out, get_best_reinforcement_territories v b player owned rs = .ok out)) := by
  constructor
  · intro h
    have hcsv := csv_error b player h
    have hvar : csvVariant v b player = .error () := by
      unfold csvVariant
      rw [hcsv]
      rfl
    have hcore : reinfCore v b player owned rs = .error () := by
      unfold reinfCore
      rw [hvar]
      rfl
    refine ⟨hcsv, ?_⟩
    unfold get_best_reinforcement_territories
    rw [hcore]
    cases v <;> rfl
  · intro h
    obtain ⟨pr, hpr⟩ := contPrios_ok b player b.continents h
    refine ⟨⟨(pr, terrVals b pr), by
      unfold calculate_strategic_values
      rw [hpr]
      rfl⟩, ?_⟩
    intro harm
    exact reinf_ok v b player owned rs h harm

/-- Board whose continent lists the member "Ghost" that is absent from the
territory table. -/
def ghostBoard : GameBoard :=
  { territories := [("Home", ⟨some "P", 3⟩)]
    continents := [("BC", ⟨["Ghost"], 3⟩)]
    adjacencies := [] }

/-- Well-formed two-territory board with an enemy neighbour, so the
reinforcement scoring loop actually runs. -/
def reinfBoard : GameBoard :=
  { territories := [("A", ⟨some "P", 3⟩), ("E", ⟨some "Q", 1⟩)]
    continents := [("K", ⟨["A", "E"], 5⟩)]
    adjacencies := [("A", ["E"]), ("E", ["A"])] }

/-- Counterexample for C6 as stated: with a continent member absent from the
territory table, both `calculate_strategic_values` and
`get_best_reinforcement_territories` raise — the missing entry is not treated
as a skip or zero contribution. -/
theorem missing_lookup_raises_cex :
    calculate_strategic_values ghostBoard "P" = .error () ∧
    get_best_reinforcement_territories .base ghostBoard "P" ["Home"]
      (fun _ => 0) = .error () := by
  constructor
  · simp [calculate_strategic_values, contPrios, countOwned, getTerritory,
      ghostBoard, List.find?, Bind.bind, Except.bind]
  · simp [get_best_reinforcement_territories, reinfCore, csvVariant,
      calculate_strategic_values, contPrios, countOwned, getTerritory,
      ghostBoard, List.find?, Bind.bind, Except.bind]

/-- Witness for C6 (amended), applying the theorem at the ghost board (raise
direction), at the scenario board (valuation completion) and at the
well-formed two-territory board (reinforcement completion). -/
theorem missing_lookup_raises_witness :
    (calculate_strategic_values ghostBoard "P" = .error () ∧
      get_best_reinforcement_territories .base ghostBoard "P" ["Home"]
        (fun _ => 0) = .error ()) ∧
    (∃ pv, calculate_strategic_values scenarioBoard "P" = .ok pv) ∧
    (∃ out, get_best_reinforcement_territories .base reinfBoard "P" ["A"]
      (fun _ => 0) = .ok out) := by
  refine ⟨?_, ?_, ?_⟩
  · refine (missing_lookup_raises .base ghostBoard "P" ["Home"] (fun _ => 0)).1 ?_
    refine ⟨("BC", ⟨["Ghost"], 3⟩), by simp [ghostBoard], "Ghost", by simp, ?_⟩
    simp [getTerritory, ghostBoard, List.find?]
  · refine ((missing_lookup_raises .base scenarioBoard "P" [] (fun _ => 0)).2 ?_).1
    intro p hp
    simp only [scenarioBoard, List.mem_singleton] at hp
    subst hp
    constructor
    · simp
    · intro t ht
      simp only [List.mem_cons, List.not_mem_nil, or_false] at ht
      rcases ht with rfl | rfl | rfl | rfl <;>
        simp [getTerritory, scenarioBoard, List.find?]
  · refine ((missing_lookup_raises .base reinfBoard "P" ["A"] (fun _ => 0)).2 ?_).2 ?_
    · intro p hp
      simp only [reinfBoard, List.mem_singleton] at hp
      subst hp
      constructor
      · simp
      · intro t ht
        simp only [List.mem_cons, List.not_mem_nil, or_false] at ht
        rcases ht with rfl | rfl <;>
          simp [getTerritory, reinfBoard, List.find?]
    · intro p hp
      simp only [reinfBoard, List.mem_cons, List.not_mem_nil, or_false] at hp
      rcases hp with rfl | rfl <;> decide

theorem maxGo_spec : ∀ (l : List (String × ℚ)) (k : String) (v : ℚ),
    ∃ w, ((maxGo k v l, w) = (k, v) ∨ (maxGo k v l, w) ∈ l) ∧ v ≤ w ∧
      ∀ p ∈ l, p.2 ≤ w := by
  intro l
  induction l with
  | nil =>
    intro k v
    exact ⟨v, Or.inl rfl, le_refl v, by intro p hp; cases hp⟩
  | cons q rest ih =>
    intro k v
    obtain ⟨k1, v1⟩ := q
    by_cases h : v < v1
    · obtain ⟨w, hmem, hle, hall⟩ := ih k1 v1
      have hg : maxGo k v ((k1, v1) :: rest) = maxGo k1 v1 rest := by
        simp only [maxGo, if_pos h]
      refine ⟨w, ?_, le_of_lt (lt_of_lt_of_le h hle), ?_⟩
      · right
        rw [hg]
        rcases hmem with he | hm
        · rw [he]
          exact List.mem_cons_self _ _
        · exact List.mem_cons_of_mem _ hm
      · intro p hp
        rcases List.mem_cons.mp hp with hp1 | hp1
        · rw [hp1]
          exact hle
        · exact hall p hp1
    · obtain ⟨w, hmem, hle, hall⟩ := ih k v
      have hg : maxGo k v ((k1, v1) :: rest) = maxGo k v rest := by
        simp only [maxGo, if_neg h]
      refine ⟨w, ?_, hle, ?_⟩
      · rw [hg]
        rcases hmem with he | hm
        · exact Or.inl he
        · exact Or.inr (List.mem_cons_of_mem _ hm)
      · intro p hp
        rcases List.mem_cons.mp hp with hp1 | hp1
        · rw [hp1]
          exact le_trans (not_lt.mp h) hle
        · exact hall p hp1

theorem maxBySnd_spec {l : List (String × ℚ)} {k : String}
    (h : maxBySnd l = some k) : ∃ w, (k, w) ∈ l ∧ ∀ p ∈ l, p.2 ≤ w := by
  cases l with
  | nil => cases h
  | cons q rest =>
    obtain ⟨k0, v0⟩ := q
    simp only [maxBySnd, Option.some.injEq] at h
    obtain ⟨w, hmem, hle, hall⟩ := maxGo_spec rest k0 v0
    refine ⟨w, ?_, ?_⟩
    · rcases hmem with he | hm
      · rw [← h]
        rw [he]
        exact List.mem_cons_self _ _
      · rw [← h]
        exact List.mem_cons_of_mem _ hm
    · intro p hp
      rcases List.mem_cons.mp hp with hp1 | hp1
      · rw [hp1]
        exact hle
      · exact hall p hp1

theorem contPrios_length (b : GameBoard) (player : String) :
    ∀ l pr, contPrios b player l = .ok pr → pr.length = l.length := by
  intro l
  induction l with
  | nil =>
    intro pr h
    simp only [contPrios, Except.ok.injEq] at h
    rw [← h]
    rfl
  | cons p rest ih =>
    intro pr h
    obtain ⟨cn0, c0⟩ := p
    simp only [contPrios] at h
    cases hO0 : countOwned b player c0.territories with
    | error e => rw [hO0] at h; simp [Bind.bind, Except.bind] at h
    | ok o0 =>
      rw [hO0] at h
      simp only [Bind.bind, Except.bind] at h
      cases hv0 : (if 0 < count_continent_entry_points b cn0 then
          (if c0.territories.length = 0 then (.error () : Except Unit ℚ)
           else .ok (((c0.bonus_armies : ℚ) / (count_continent_entry_points b cn0 : ℚ)) *
             (((o0 : ℚ) / (c0.territories.length : ℚ)) ^ 2 + 1/10)))
        else .ok 0) with
      | error e => rw [hv0] at h; simp [Bind.bind, Except.bind] at h
      | ok v0 =>
        rw [hv0] at h
        cases hr : contPrios b player rest with
        | error e => rw [hr] at h; simp [Bind.bind, Except.bind] at h
        | ok pr1 =>
          rw [hr] at h
          simp only [Pure.pure, Except.pure, Except.ok.injEq] at h
          rw [← h]
          simp [ih pr1 hr]

/-- C5: `choose_target_continent` returns the continent maximizing
`priority * (control + 0.1)^2 * U` over all continents, where `U` is the
fresh per-continent draw `0.8 + 0.4 * rs i`, always inside the closed
interval [0.8, 1.2] for draws in [0, 1); it returns `none` exactly on a board
with no continents. -/
theorem choose_target_spec (b : GameBoard) (player : String) (rs : Nat → ℚ)
    (prios vals ctrl : List (String × ℚ))
    (hcsv : calculate_strategic_values b player = .ok (prios, vals))
    (hctrl : get_player_continent_control b player = .ok ctrl)
    (hrs : ∀ i, 0 ≤ rs i ∧ rs i < 1) :
    choose_target_continent prios b player rs =
      .ok (maxBySnd (weightsOf prios ctrl rs)) ∧
    (b.continents = [] → maxBySnd (weightsOf prios ctrl rs) = none) ∧
    (b.continents ≠ [] → ∃ k w, maxBySnd (weightsOf prios ctrl rs) = some k ∧
      (k, w) ∈ weightsOf prios ctrl rs ∧
      ∀ p ∈ weightsOf prios ctrl rs, p.2 ≤ w) ∧
    (∀ i, 4/5 ≤ 4/5 + 2/5 * rs i ∧ 4/5 + 2/5 * rs i ≤ 6/5) := by
  have hlen : prios.length = b.continents.length := by
    unfold calculate_strategic_values at hcsv
    cases hcp : contPrios b player b.continents with
    | error e => rw [hcp] at hcsv; simp [Bind.bind, Except.bind] at hcsv
    | ok pr =>
      rw [hcp] at hcsv
      simp only [Bind.bind, Except.bind, Pure.pure, Except.pure, Except.ok.injEq,
        Prod.mk.injEq] at hcsv
      rw [← hcsv.1]
      exact contPrios_length b player b.continents pr hcp
  refine ⟨?_, ?_, ?_, ?_⟩
  · unfold choose_target_continent
    rw [hctrl]
    rfl
  · intro hemp
    have hpe : prios = [] := by
      rw [hemp] at hlen
      simp only [List.length_nil] at hlen
      exact List.length_eq_zero.mp hlen
    subst hpe
    rfl
  · intro hne
    have hplen : prios ≠ [] := by
      intro hp
      subst hp
      simp only [List.length_nil] at hlen
      exact hne (List.length_eq_zero.mp hlen.symm)
    have hwne : weightsOf prios ctrl rs ≠ [] := by
      unfold weightsOf
      intro hw
      have := congrArg List.length hw
      simp at this
      exact hplen this
    cases hw : weightsOf prios ctrl rs with
    | nil => exact absurd hw hwne
    | cons q qs =>
      obtain ⟨k0, v0⟩ := q
      have hmb : maxBySnd ((k0, v0) :: qs) = some (maxGo k0 v0 qs) := rfl
      obtain ⟨w, hmem, hall⟩ := maxBySnd_spec hmb
      exact ⟨maxGo k0 v0 qs, w, hmb, hmem, hall⟩
  · intro i
    obtain ⟨h0, h1⟩ := hrs i
    constructor <;> linarith

/-- Witness for C5 at the scenario board with the constant draw 1/2. -/
theorem choose_target_spec_witness :
    calculate_strategic_values scenarioBoard "P" =
      .ok ([("K", 33/5)], [("C1", 198/25), ("C2", 198/25), ("C3", 198/25),
        ("C4", 198/25)]) ∧
    get_player_continent_control scenarioBoard "P" = .ok [("K", 1)] ∧
    (∀ i : Nat, 0 ≤ ((fun _ => (1 : ℚ)/2) i) ∧ ((fun _ => (1 : ℚ)/2) i) < 1) ∧
    choose_target_continent [("K", (33 : ℚ)/5)] scenarioBoard "P"
      (fun _ => 1/2) =
      .ok (maxBySnd (weightsOf [("K", (33 : ℚ)/5)] [("K", (1 : ℚ))]
        (fun _ => 1/2))) := by
  have hcsv : calculate_strategic_values scenarioBoard "P" =
      .ok ([("K", 33/5)], [("C1", 198/25), ("C2", 198/25), ("C3", 198/25),
        ("C4", 198/25)]) := by
    simp [calculate_strategic_values, contPrios, countOwned,
      count_continent_entry_points, getContinent, getTerritory, getAdj,
      get_continent_for_territory, is_continent_gateway, terrVals, lookupD,
      scenarioBoard, List.find?, List.filter, List.any, Bind.bind, Except.bind,
      Pure.pure, Except.pure, min_def, max_def]
    norm_num
  have hctrl : get_player_continent_control scenarioBoard "P" = .ok [("K", 1)] := by
    simp [get_player_continent_control, get_player_continent_control.go,
      countOwned, getTerritory, scenarioBoard, List.find?, Bind.bind,
      Except.bind, Pure.pure, Except.pure]
  have hrs : ∀ i : Nat, 0 ≤ ((fun _ => (1 : ℚ)/2) i) ∧
      ((fun _ => (1 : ℚ)/2) i) < 1 := by
    intro i
    norm_num
  exact ⟨hcsv, hctrl, hrs,
    (choose_target_spec scenarioBoard "P" (fun _ => 1/2) [("K", 33/5)]
      [("C1", 198/25), ("C2", 198/25), ("C3", 198/25), ("C4", 198/25)]
      [("K", 1)] hcsv hctrl hrs).1⟩

theorem mem_dictInsert_keys {α : Type} (k x : String) (v : α)
    (m : List (String × α)) :
    (x ∈ (dictInsert k v m).map Prod.fst) ↔ (x ∈ m.map Prod.fst ∨ x = k) := by
  rw [dictInsert_keys]
  by_cases h : m.any (fun p => p.1 = k)
  · rw [if_pos h]
    constructor
    · intro hx
      exact Or.inl hx
    · rintro (hx | rfl)
      · exact hx
      · obtain ⟨p, hp, he⟩ := List.any_eq_true.mp h
        simp only [decide_eq_true_eq] at he
        exact List.mem_map.mpr ⟨p, hp, he⟩
  · rw [if_neg h]
    simp [List.mem_append]

theorem nodup_dictInsert_keys {α : Type} (k : String) (v : α)
    (m : List (String × α)) (h : (m.map Prod.fst).Nodup) :
    ((dictInsert k v m).map Prod.fst).Nodup := by
  rw [dictInsert_keys]
  by_cases hk : m.any (fun p => p.1 = k)
  · rw [if_pos hk]
    exact h
  · rw [if_neg hk]
    rw [List.nodup_append]
    refine ⟨h, List.nodup_singleton k, ?_⟩
    intro x hx hk1
    simp only [List.mem_singleton] at hk1
    subst hk1
    obtain ⟨p, hp, he⟩ := List.mem_map.mp hx
    exact hk (List.any_eq_true.mpr ⟨p, hp, by simp [he]⟩)

theorem scoreLoop_keys (vals : List (String × ℚ)) (target : Option String)
    (b : GameBoard) (player : String) :
    ∀ fl acc out, scoreLoop vals target b player fl acc = .ok out →
    (∀ t ∈ fl, (getTerritory b t).isSome) →
    (∀ x, x ∈ out.map Prod.fst ↔ (x ∈ acc.map Prod.fst ∨ x ∈ fl)) ∧
    ((acc.map Prod.fst).Nodup → (out.map Prod.fst).Nodup) := by
  intro fl
  induction fl with
  | nil =>
    intro acc out h _
    simp only [scoreLoop, Except.ok.injEq] at h
    subst h
    exact ⟨fun x => by simp, fun hn => hn⟩
  | cons t rest ih =>
    intro acc out h hex
    simp only [scoreLoop] at h
    cases hT : getTerritory b t with
    | none =>
      have := hex t (List.mem_cons_self t rest)
      rw [hT] at this
      cases this
    | some terr =>
      rw [hT] at h
      simp only [Bind.bind, Except.bind] at h
      cases hs : reinfScore vals target b player t terr with
      | error e => rw [hs] at h; cases h
      | ok s =>
        rw [hs] at h
        obtain ⟨hmem, hnd⟩ := ih (dictInsert t s acc) out h
          (fun x hx => hex x (List.mem_cons_of_mem t hx))
        constructor
        · intro x
          rw [hmem x, mem_dictInsert_keys]
          constructor
          · rintro ((hx | rfl) | hx)
            · exact Or.inl hx
            · exact Or.inr (List.mem_cons_self _ _)
            · exact Or.inr (List.mem_cons_of_mem _ hx)
          · rintro (hx | hx)
            · exact Or.inl (Or.inl hx)
            · rcases List.mem_cons.mp hx with rfl | hx1
              · exact Or.inl (Or.inr rfl)
              · exact Or.inr hx1
        · intro hacc
          exact hnd (nodup_dictInsert_keys t s acc hacc)

theorem reinfCore_perm (v : Strat) (b : GameBoard) (player : String)
    (owned : List String) (rs : Nat → ℚ) (l : List String)
    (hex : ∀ t ∈ owned, (getTerritory b t).isSome)
    (h : reinfCore v b player owned rs = .ok l) :
    (owned.filter (fun t => is_front_line_territory b player t) = [] →
      l = owned) ∧
    (owned.filter (fun t => is_front_line_territory b player t) ≠ [] →
      l.Perm (owned.filter (fun t => is_front_line_territory b player t)).dedup) := by
  unfold reinfCore at h
  cases hcsv : csvVariant v b player with
  | error e => rw [hcsv] at h; cases h
  | ok pv =>
    rw [hcsv] at h
    simp only [Bind.bind, Except.bind] at h
    cases hct : choose_target_continent pv.1 b player rs with
    | error e => rw [hct] at h; cases h
    | ok target =>
      simp only [hct] at h
      by_cases hfl : owned.filter (fun t => is_front_line_territory b player t) = []
      · rw [if_pos hfl] at h
        simp only [Pure.pure, Except.pure, Except.ok.injEq] at h
        exact ⟨fun _ => h.symm, fun hne => absurd hfl hne⟩
      · rw [if_neg hfl] at h
        cases hsc : scoreLoop pv.2 target b player
            (owned.filter (fun t => is_front_line_territory b player t)) [] with
        | error e => simp only [hsc] at h; cases h
        | ok scores =>
          simp only [hsc, Pure.pure, Except.pure, Except.ok.injEq] at h
          refine ⟨fun he => absurd he hfl, fun _ => ?_⟩
          obtain ⟨hmem, hnd⟩ := scoreLoop_keys pv.2 target b player _ [] scores hsc
            (fun t ht => hex t (List.mem_of_mem_filter ht))
          have hperm1 : l.Perm (scores.map Prod.fst) := by
            rw [← h]
            exact (sortDescBy_perm (fun p => p.2) scores).map Prod.fst
          refine hperm1.trans ?_
          rw [List.perm_ext_iff_of_nodup (hnd (List.nodup_nil)) (List.nodup_dedup _)]
          intro x
          rw [hmem x, List.mem_dedup]
          simp

/-- C7: for every strategy variant, the list returned by
`get_best_reinforcement_territories` is a permutation of the set of
front-line owned territories, or a permutation of the full owned list when no
front-line territory exists; it never contains an identifier outside the
input. -/
theorem reinforcement_perm (v : Strat) (b : GameBoard) (player : String)
    (owned : List String) (rs : Nat → ℚ) (l : List String)
    (hex : ∀ t ∈ owned, (getTerritory b t).isSome)
    (h : get_best_reinforcement_territories v b player owned rs = .ok l) :
    (owned.filter (fun t => is_front_line_territory b player t) = [] →
      l.Perm owned) ∧
    (owned.filter (fun t => is_front_line_territory b player t) ≠ [] →
      l.Perm (owned.filter (fun t => is_front_line_territory b player t)).dedup) ∧
    (∀ x ∈ l, x ∈ owned) := by
  unfold get_best_reinforcement_territories at h
  cases hbase : reinfCore v b player owned rs with
  | error e => rw [hbase] at h; cases h
  | ok l0 =>
    rw [hbase] at h
    simp only [Bind.bind, Except.bind] at h
    obtain ⟨hempty, hne⟩ := reinfCore_perm v b player owned rs l0 hex hbase
    have main : l.Perm l0 →
        (owned.filter (fun t => is_front_line_territory b player t) = [] →
          l.Perm owned) ∧
        (owned.filter (fun t => is_front_line_territory b player t) ≠ [] →
          l.Perm (owned.filter (fun t => is_front_line_territory b player t)).dedup) ∧
        (∀ x ∈ l, x ∈ owned) := by
      intro hp
      by_cases hfl : owned.filter (fun t => is_front_line_territory b player t) = []
      · have he := hempty hfl
        subst he
        exact ⟨fun _ => hp, fun hc => absurd hfl hc, fun x hx => hp.mem_iff.mp hx⟩
      · have hpd := hne hfl
        refine ⟨fun hc => absurd hc hfl, fun _ => hp.trans hpd, ?_⟩
        intro x hx
        have hx0 : x ∈ l0 := hp.mem_iff.mp hx
        have : x ∈ (owned.filter (fun t => is_front_line_territory b player t)).dedup :=
          hpd.mem_iff.mp hx0
        rw [List.mem_dedup] at this
        exact List.mem_of_mem_filter this
    have hl0sub : ∀ x ∈ l0, x ∈ owned := by
      intro x hx
      by_cases hfl : owned.filter (fun t => is_front_line_territory b player t) = []
      · rw [hempty hfl] at hx
        exact hx
      · have := (hne hfl).mem_iff.mp hx
        rw [List.mem_dedup] at this
        exact List.mem_of_mem_filter this
    cases v with
    | base =>
      simp only [Pure.pure, Except.pure, Except.ok.injEq] at h
      exact main (h ▸ List.Perm.refl l0)
    | balanced =>
      simp only [Pure.pure, Except.pure, Except.ok.injEq] at h
      exact main (h ▸ List.Perm.refl l0)
    | opportunistic =>
      simp only [Pure.pure, Except.pure, Except.ok.injEq] at h
      exact main (h ▸ List.Perm.refl l0)
    | genghis =>
      simp only [Pure.pure, Except.pure, Except.ok.injEq] at h
      exact main (h ▸ List.Perm.refl l0)
    | sunTzu =>
      simp only [Pure.pure, Except.pure, Except.ok.injEq] at h
      exact main (h ▸ List.Perm.refl l0)
    | aggressive =>
      simp only [Pure.pure, Except.pure, Except.ok.injEq] at h
      exact main (h ▸ List.Perm.refl l0)
    | napoleon =>
      simp only [Pure.pure, Except.pure, Except.ok.injEq] at h
      refine main ?_
      rw [← h]
      exact sortDescBy_perm _ l0
    | hannibal =>
      simp only [Pure.pure, Except.pure, Except.ok.injEq] at h
      refine main ?_
      rw [← h]
      exact sortDescBy_perm _ l0
    | defensive =>
      cases hctrl : get_player_continent_control b player with
      | error e => rw [hctrl] at h; cases h
      | ok ctrl =>
        rw [hctrl] at h
        simp only [Pure.pure, Except.pure, Except.ok.injEq] at h
        refine main ?_
        rw [← h]
        exact sortDescBy_perm _ l0
    | elizabeth =>
      cases hctrl : get_player_continent_control b player with
      | error e => rw [hctrl] at h; cases h
      | ok ctrl =>
        rw [hctrl] at h
        simp only [Pure.pure, Except.pure, Except.ok.injEq] at h
        refine main ?_
        rw [← h]
        exact sortDescBy_perm _ l0
    | alexander =>
      simp only [Pure.pure, Except.pure, Except.ok.injEq] at h
      by_cases hfl : owned.filter (fun t => is_front_line_territory b player t) = []
      · have he := hempty hfl
        subst he
        have hfl2 : l0.filter (fun t => is_front_line_territory b player t) = [] := by
          rw [List.filter_eq_nil_iff] at hfl ⊢
          exact fun a ha => hfl a (hl0sub a ha)
        rw [hfl2, if_pos rfl] at h
        exact main (h ▸ List.Perm.refl l0)
      · have hall : ∀ x ∈ l0, is_front_line_territory b player x := by
          intro x hx
          have := (hne hfl).mem_iff.mp hx
          rw [List.mem_dedup] at this
          exact List.of_mem_filter this
        have hfl2 : l0.filter (fun t => is_front_line_territory b player t) = l0 :=
          List.filter_eq_self.mpr hall
        rw [hfl2] at h
        by_cases hl0 : l0 = []
        · rw [if_pos hl0] at h
          exact main (h ▸ List.Perm.refl l0)
        · rw [if_neg hl0] at h
          exact main (h ▸ List.Perm.refl l0)

/-- Witness for C7: on the two-territory board the single owned territory is
front line and is returned, a permutation of the front-line set. -/
theorem reinforcement_perm_witness :
    (∀ t ∈ ["A"], (getTerritory attackBoard t).isSome) ∧
    get_best_reinforcement_territories .base attackBoard "P" ["A"]
      (fun _ => 0) = .ok ["A"] ∧
    ((["A"].filter (fun t => is_front_line_territory attackBoard "P" t)) ≠ [] →
      List.Perm ["A"]
        ((["A"].filter (fun t => is_front_line_territory attackBoard "P" t)).dedup)) := by
  have hex : ∀ t ∈ ["A"], (getTerritory attackBoard t).isSome := by
    intro t ht
    simp only [List.mem_singleton] at ht
    subst ht
    simp [getTerritory, attackBoard, List.find?]
  have heval : get_best_reinforcement_territories .base attackBoard "P" ["A"]
      (fun _ => 0) = .ok ["A"] := by
    simp [get_best_reinforcement_territories, reinfCore, csvVariant,
      calculate_strategic_values, contPrios, terrVals, choose_target_continent,
      get_player_continent_control, get_player_continent_control.go, weightsOf,
      maxBySnd, maxGo, scoreLoop, reinfScore, bordersNeeded,
      calculate_attack_opportunity_score, oppLoop, captureValue,
      get_continent_completion_territories, get_continent_completion_territories.go,
      getContinent, get_continent_for_territory, is_continent_gateway,
      is_front_line_territory, getTerritory, getAdj, lookupD, targetMatch,
      dictInsert, sortDescBy, insertDescBy, countOwned, List.find?, List.filter,
      List.any, Bind.bind, Except.bind, Pure.pure, Except.pure, min_def, max_def,
      attackBoard]
    norm_num [sortDescBy, insertDescBy, Bind.bind, Except.bind, Pure.pure,
      Except.pure]
  exact ⟨hex, heval,
    (reinforcement_perm .base attackBoard "P" ["A"] (fun _ => 0) ["A"] hex heval).2.1⟩

/-- Advantage ratio of the attacker against a defender record (lines 239-242
and 301-304): armies ratio, or the attacker's armies when the defender has
none. -/
def advOf (srcA : Int) (t : Territory) : ℚ :=
  if 0 < t.armies then (srcA : ℚ) / (t.armies : ℚ) else (srcA : ℚ)

/-- Board with one territory record replaced (used to vary a single
defender's army count). -/
def setTerritoryRec (b : GameBoard) (n : String) (t1 : Territory) : GameBoard :=
  { b with territories := b.territories.map (fun p => if p.1 = n then (n, t1) else p) }

theorem getAdj_setTerritoryRec (b : GameBoard) (n : String) (t1 : Territory)
    (x : String) : getAdj (setTerritoryRec b n t1) x = getAdj b x := rfl

theorem getContinent_setTerritoryRec (b : GameBoard) (n : String)
    (t1 : Territory) (x : String) :
    getContinent (setTerritoryRec b n t1) x = getContinent b x := rfl

theorem gcft_setTerritoryRec (b : GameBoard) (n : String) (t1 : Territory)
    (x : String) :
    get_continent_for_territory (setTerritoryRec b n t1) x =
      get_continent_for_territory b x := rfl

theorem getTerritory_setTerritoryRec_ne (b : GameBoard) (n : String)
    (t1 : Territory) (m : String) (h : m ≠ n) :
    getTerritory (setTerritoryRec b n t1) m = getTerritory b m := by
  unfold getTerritory setTerritoryRec
  simp only
  induction b.territories with
  | nil => rfl
  | cons p rest ih =>
    rw [List.map_cons, List.find?, List.find?]
    by_cases hp : p.1 = n
    · rw [if_pos hp]
      have h1 : (decide ((n, t1).1 = m)) = false := by
        simp only [decide_eq_false_iff_not]
        intro he
        exact h (he.symm)
      have h2 : (decide (p.1 = m)) = false := by
        simp only [decide_eq_false_iff_not]
        intro he
        exact h (he.symm.trans hp)
      rw [h1, h2]
      exact ih
    · rw [if_neg hp]
      cases hm : decide (p.1 = m) with
      | true => rfl
      | false => exact ih

theorem find?_map_set_self (n : String) (t1 : Territory) :
    ∀ l : List (String × Territory),
    (l.find? (fun p => p.1 = n)).isSome →
    (l.map (fun p => if p.1 = n then (n, t1) else p)).find?
      (fun p => p.1 = n) = some (n, t1) := by
  intro l
  induction l with
  | nil => intro h; simp [List.find?] at h
  | cons p rest ih =>
    intro h
    by_cases hp : p.1 = n
    · rw [List.map_cons, if_pos hp]
      rw [List.find?_cons_of_pos]
      simp
    · rw [List.map_cons, if_neg hp]
      rw [List.find?_cons_of_neg]
      · apply ih
        rw [List.find?_cons_of_neg] at h
        · exact h
        · simp [hp]
      · simp [hp]

theorem getTerritory_setTerritoryRec_self (b : GameBoard) (n : String)
    (t0 t1 : Territory) (h : getTerritory b n = some t0) :
    getTerritory (setTerritoryRec b n t1) n = some t1 := by
  unfold getTerritory at h
  unfold getTerritory setTerritoryRec
  simp only
  have hsome : (b.territories.find? (fun p => p.1 = n)).isSome := by
    cases hf : b.territories.find? (fun p => p.1 = n) with
    | none => rw [hf] at h; cases h
    | some pr => rfl
  rw [find?_map_set_self n t1 b.territories hsome]
  rfl

theorem completion_setTerritoryRec (b : GameBoard) (n : String)
    (t0 t1 : Territory) (player : String) (hn : getTerritory b n = some t0)
    (howner : t1.owner = t0.owner) (c : String) :
    get_continent_completion_territories (setTerritoryRec b n t1) c player =
      get_continent_completion_territories b c player := by
  unfold get_continent_completion_territories
  rw [getContinent_setTerritoryRec]
  cases getContinent b c with
  | none => rfl
  | some cc =>
    simp only
    induction cc.territories with
    | nil => rfl
    | cons m rest ih =>
      by_cases hm : m = n
      · subst hm
        rw [get_continent_completion_territories.go,
          get_continent_completion_territories.go,
          getTerritory_setTerritoryRec_self b m t0 t1 hn, hn]
        simp only [Bind.bind, Except.bind, howner]
        rw [ih]
      · rw [get_continent_completion_territories.go,
          get_continent_completion_territories.go,
          getTerritory_setTerritoryRec_ne b n t1 m hm]
        cases getTerritory b m with
        | none => rfl
        | some tt =>
          simp only [Bind.bind, Except.bind]
          rw [ih]

theorem captureValue_setTerritoryRec (vals : List (String × ℚ))
    (target : Option String) (b : GameBoard) (player : String) (n : String)
    (t0 t1 : Territory) (hn : getTerritory b n = some t0)
    (howner : t1.owner = t0.owner) (a : String) :
    captureValue vals target (setTerritoryRec b n t1) player a =
      captureValue vals target b player a := by
  unfold captureValue
  rw [gcft_setTerritoryRec]
  cases get_continent_for_territory b a with
  | none => rfl
  | some c =>
    simp only [Bind.bind, Except.bind]
    rw [completion_setTerritoryRec b n t0 t1 player hn howner c]

theorem lookupD_nonneg {m : List (String × ℚ)} {k : String} {d : ℚ}
    (hm : ∀ p ∈ m, 0 ≤ p.2) (hd : 0 ≤ d) : 0 ≤ lookupD m k d := by
  unfold lookupD
  cases hf : m.find? (fun p => p.1 = k) with
  | none => exact hd
  | some pr => exact hm pr (List.mem_of_find?_eq_some hf)

theorem captureValue_nonneg (vals : List (String × ℚ)) (target : Option String)
    (b : GameBoard) (player : String) (a : String) (cv : ℚ)
    (hvals : ∀ p ∈ vals, 0 ≤ p.2)
    (h : captureValue vals target b player a = .ok cv) : 0 ≤ cv := by
  unfold captureValue at h
  have h0 : (0 : ℚ) ≤ lookupD vals a 1 := lookupD_nonneg hvals (by norm_num)
  have h1 : (0 : ℚ) ≤ (if targetMatch target (get_continent_for_territory b a)
      then lookupD vals a 1 * 2 else lookupD vals a 1) := by
    split <;> nlinarith
  cases hg : get_continent_for_territory b a with
  | none =>
    rw [hg] at h h1
    simp only [Bind.bind, Except.bind, Pure.pure, Except.pure, Except.ok.injEq] at h
    rw [← h]
    exact h1
  | some c =>
    rw [hg] at h h1
    simp only [Bind.bind, Except.bind] at h
    cases hc : get_continent_completion_territories b c player with
    | error e => rw [hc] at h; cases h
    | ok needed =>
      rw [hc] at h
      simp only [Pure.pure, Except.pure, Except.ok.injEq] at h
      rw [← h]
      split <;> nlinarith

theorem oppLoop_mono (vals : List (String × ℚ)) (target : Option String)
    (b : GameBoard) (player : String) (n : String) (t0 t1 : Territory)
    (hvals : ∀ p ∈ vals, 0 ≤ p.2)
    (hn : getTerritory b n = some t0)
    (howner : t1.owner = t0.owner)
    (srcA : Int)
    (hadv : advOf srcA t0 ≤ advOf srcA t1) :
    ∀ adjs acc acc1, 0 ≤ acc → acc ≤ acc1 →
    ∀ q q1, oppLoop vals target b player srcA adjs acc = .ok q →
      oppLoop vals target (setTerritoryRec b n t1) player srcA adjs acc1 = .ok q1 →
      0 ≤ q ∧ q ≤ q1 := by
  intro adjs
  induction adjs with
  | nil =>
    intro acc acc1 h0 h01 q q1 hq hq1
    simp only [oppLoop, Except.ok.injEq] at hq hq1
    subst hq
    subst hq1
    exact ⟨h0, h01⟩
  | cons a rest ih =>
    intro acc acc1 h0 h01 q q1 hq hq1
    simp only [oppLoop] at hq hq1
    by_cases han : a = n
    · subst han
      simp only [hn] at hq
      simp only [getTerritory_setTerritoryRec_self b a t0 t1 hn, howner] at hq1
      by_cases how : t0.owner = some player
      · rw [if_pos how] at hq hq1
        exact ih acc acc1 h0 h01 q q1 hq hq1
      · rw [if_neg how] at hq hq1
        have hA0 : (if 0 < t0.armies then (srcA : ℚ) / (t0.armies : ℚ)
            else (srcA : ℚ)) = advOf srcA t0 := rfl
        have hA1 : (if 0 < t1.armies then (srcA : ℚ) / (t1.armies : ℚ)
            else (srcA : ℚ)) = advOf srcA t1 := rfl
        rw [hA0] at hq
        rw [hA1] at hq1
        rw [captureValue_setTerritoryRec vals target b player a t0 t1 hn howner] at hq1
        by_cases h15 : 3/2 ≤ advOf srcA t0
        · have h15' : 3/2 ≤ advOf srcA t1 := le_trans h15 hadv
          rw [if_pos h15] at hq
          rw [if_pos h15'] at hq1
          cases hcv : captureValue vals target b player a with
          | error e => rw [hcv] at hq; simp [Bind.bind, Except.bind] at hq
          | ok cv =>
            rw [hcv] at hq hq1
            simp only [Bind.bind, Except.bind] at hq hq1
            have hcvn := captureValue_nonneg vals target b player a cv hvals hcv
            refine ih _ _ ?_ ?_ q q1 hq hq1
            · nlinarith
            · nlinarith
        · rw [if_neg h15] at hq
          by_cases h15' : 3/2 ≤ advOf srcA t1
          · rw [if_pos h15'] at hq1
            cases hcv : captureValue vals target b player a with
            | error e => rw [hcv] at hq1; simp [Bind.bind, Except.bind] at hq1
            | ok cv =>
              rw [hcv] at hq1
              simp only [Bind.bind, Except.bind] at hq1
              have hcvn := captureValue_nonneg vals target b player a cv hvals hcv
              refine ih _ _ h0 ?_ q q1 hq hq1
              nlinarith
          · rw [if_neg h15'] at hq1
            exact ih acc acc1 h0 h01 q q1 hq hq1
    · rw [getTerritory_setTerritoryRec_ne b n t1 a (fun he => han he)] at hq1
      cases hta : getTerritory b a with
      | none =>
        simp only [hta] at hq hq1
        exact ih acc acc1 h0 h01 q q1 hq hq1
      | some tt =>
        simp only [hta] at hq hq1
        by_cases how : tt.owner = some player
        · rw [if_pos how] at hq hq1
          exact ih acc acc1 h0 h01 q q1 hq hq1
        · rw [if_neg how] at hq hq1
          rw [captureValue_setTerritoryRec vals target b player n t0 t1 hn howner] at hq1
          by_cases h15 : 3/2 ≤ (if 0 < tt.armies then (srcA : ℚ) / (tt.armies : ℚ)
              else (srcA : ℚ))
          · rw [if_pos h15] at hq hq1
            cases hcv : captureValue vals target b player a with
            | error e => rw [hcv] at hq; simp [Bind.bind, Except.bind] at hq
            | ok cv =>
              rw [hcv] at hq hq1
              simp only [Bind.bind, Except.bind] at hq hq1
              have hcvn := captureValue_nonneg vals target b player a cv hvals hcv
              refine ih _ _ ?_ ?_ q q1 hq hq1
              · nlinarith
              · nlinarith
          · rw [if_neg h15] at hq hq1
            exact ih acc acc1 h0 h01 q q1 hq hq1

/-- C8 (amended): provided every stored territory value is nonnegative, the
attack opportunity score lies in [0, 3.0], and it is monotonically
non-decreasing when a single neighbour's advantage ratio increases (the
neighbour's record being replaced by one with the same owner and a weakly
larger advantage). -/
theorem attack_opportunity_mono_bounded (vals : List (String × ℚ))
    (target : Option String) (b : GameBoard) (player src n : String)
    (t0 t1 : Territory)
    (hvals : ∀ p ∈ vals, 0 ≤ p.2)
    (hn : getTerritory b n = some t0)
    (howner : t1.owner = t0.owner)
    (hns : n ≠ src)
    (hadv : ∀ ft, getTerritory b src = some ft → advOf ft.armies t0 ≤ advOf ft.armies t1) :
    ∀ q q1, calculate_attack_opportunity_score vals target b player src = .ok q →
      calculate_attack_opportunity_score vals target (setTerritoryRec b n t1)
        player src = .ok q1 →
      (0 ≤ q ∧ q ≤ 3) ∧ q ≤ q1 := by
  intro q q1 hq hq1
  unfold calculate_attack_opportunity_score at hq hq1
  rw [getTerritory_setTerritoryRec_ne b n t1 src (Ne.symm hns)] at hq1
  cases hft : getTerritory b src with
  | none =>
    simp only [hft, Except.ok.injEq] at hq hq1
    subst hq
    subst hq1
    exact ⟨⟨le_refl 0, by norm_num⟩, le_refl 0⟩
  | some ft =>
    simp only [hft] at hq hq1
    by_cases hg : ft.owner ≠ some player ∨ ft.armies ≤ 1
    · rw [if_pos hg] at hq hq1
      injection hq with hq
      injection hq1 with hq1
      subst hq
      subst hq1
      exact ⟨⟨le_refl 0, by norm_num⟩, le_refl 0⟩
    · rw [if_neg hg] at hq hq1
      rw [getAdj_setTerritoryRec] at hq1
      simp only [Bind.bind, Except.bind] at hq hq1
      cases hs : oppLoop vals target b player ft.armies (getAdj b src) 0 with
      | error e => rw [hs] at hq; cases hq
      | ok s =>
        rw [hs] at hq
        cases hs1 : oppLoop vals target (setTerritoryRec b n t1) player ft.armies
            (getAdj b src) 0 with
        | error e => rw [hs1] at hq1; cases hq1
        | ok s1 =>
          rw [hs1] at hq1
          simp only [Pure.pure, Except.pure, Except.ok.injEq] at hq hq1
          obtain ⟨hs0, hss1⟩ := oppLoop_mono vals target b player n t0 t1 hvals
            hn howner ft.armies (hadv ft hft) (getAdj b src) 0 0 (le_refl 0)
            (le_refl 0) s s1 hs hs1
          subst hq
          subst hq1
          refine ⟨⟨le_min (by norm_num) hs0, min_le_left 3 s⟩, ?_⟩
          exact min_le_min (le_refl 3) hss1

/-- Board with a negative continent bonus, making the stored territory value
of "X" negative. -/
def negBoard : GameBoard :=
  { territories := [("S", ⟨some "P", 3⟩), ("X", ⟨some "Q", 1⟩)]
    continents := [("NC", ⟨["X"], -5⟩)]
    adjacencies := [("S", ["X"]), ("X", ["S"])] }

/-- Counterexample for C8 as stated: with capture values produced by
`calculate_strategic_values` on a negative-bonus board, the attack
opportunity score is -81/10, outside [0, 3.0] (the code caps only from
above). -/
theorem attack_opportunity_cex :
    calculate_strategic_values negBoard "P" =
      .ok ([("NC", -3/4)], [("S", 4/5), ("X", -27/20)]) ∧
    calculate_attack_opportunity_score [("S", (4 : ℚ)/5), ("X", (-27 : ℚ)/20)]
      none negBoard "P" "S" = .ok (-81/10) ∧
    ((-81 : ℚ)/10) < 0 := by
  refine ⟨?_, ?_, by norm_num⟩
  · simp [calculate_strategic_values, contPrios, countOwned,
      count_continent_entry_points, getContinent, getTerritory, getAdj,
      get_continent_for_territory, is_continent_gateway, terrVals, lookupD,
      negBoard, List.find?, List.filter, List.any, Bind.bind, Except.bind,
      Pure.pure, Except.pure, min_def, max_def]
    norm_num
  · simp [calculate_attack_opportunity_score, oppLoop, captureValue,
      get_continent_completion_territories, get_continent_completion_territories.go,
      getContinent, get_continent_for_territory, getTerritory, getAdj, lookupD,
      targetMatch, negBoard, List.find?, countOwned, Bind.bind, Except.bind,
      Pure.pure, Except.pure, min_def, max_def]
    norm_num

/-- Continent-free board for the monotonicity witness: the defender "X" drops
from 2 armies to 1, raising the advantage from 2 to 4. -/
def monoBoard : GameBoard :=
  { territories := [("S", ⟨some "P", 4⟩), ("X", ⟨some "Q", 2⟩)]
    continents := []
    adjacencies := [("S", ["X"]), ("X", ["S"])] }

/-- Witness for C8 (amended): raising the sole neighbour's advantage raises
the score from 1 to 3, both within [0, 3]. -/
theorem attack_opportunity_mono_witness :
    getTerritory monoBoard "X" = some ⟨some "Q", 2⟩ ∧
    (⟨some "Q", 1⟩ : Territory).owner = (⟨some "Q", 2⟩ : Territory).owner ∧
    ("X" : String) ≠ "S" ∧
    calculate_attack_opportunity_score [] none monoBoard "P" "S" = .ok 1 ∧
    calculate_attack_opportunity_score [] none
      (setTerritoryRec monoBoard "X" ⟨some "Q", 1⟩) "P" "S" = .ok 3 ∧
    ((0 ≤ (1 : ℚ) ∧ (1 : ℚ) ≤ 3) ∧ (1 : ℚ) ≤ 3) := by
  have hn : getTerritory monoBoard "X" = some ⟨some "Q", 2⟩ := by
    simp [getTerritory, monoBoard, List.find?]
  have h1 : calculate_attack_opportunity_score [] none monoBoard "P" "S" =
      .ok 1 := by
    simp [calculate_attack_opportunity_score, oppLoop, captureValue,
      get_continent_for_territory, getTerritory, getAdj, lookupD, targetMatch,
      monoBoard, List.find?, Bind.bind, Except.bind, Pure.pure, Except.pure,
      min_def, max_def]
    norm_num
  have h2 : calculate_attack_opportunity_score [] none
      (setTerritoryRec monoBoard "X" ⟨some "Q", 1⟩) "P" "S" = .ok 3 := by
    simp [calculate_attack_opportunity_score, oppLoop, captureValue,
      get_continent_for_territory, getTerritory, getAdj, lookupD, targetMatch,
      monoBoard, setTerritoryRec, List.find?, Bind.bind, Except.bind,
      Pure.pure, Except.pure, min_def, max_def]
    norm_num
  have hadv : ∀ ft, getTerritory monoBoard "S" = some ft →
      advOf ft.armies ⟨some "Q", 2⟩ ≤ advOf ft.armies ⟨some "Q", 1⟩ := by
    intro ft hft
    simp only [getTerritory, monoBoard, List.find?] at hft
    simp at hft
    rw [← hft]
    norm_num [advOf]
  exact ⟨hn, rfl, by simp, h1, h2,
    attack_opportunity_mono_bounded [] none monoBoard "P" "S" "X"
      ⟨some "Q", 2⟩ ⟨some "Q", 1⟩ (by intro p hp; cases hp) hn rfl (by simp)
      hadv 1 3 h1 h2⟩

theorem enqueue_mem (path : List String) :
    ∀ ns visited acc out, out ∈ (enqueue path ns visited acc).2 →
    out ∈ acc ∨ out.1 ∈ ns := by
  intro ns
  induction ns with
  | nil =>
    intro visited acc out h
    exact Or.inl h
  | cons n ns ih =>
    intro visited acc out h
    by_cases hv : n ∈ visited
    · simp only [enqueue, hv, if_true] at h
      rcases ih visited acc out h with h1 | h1
      · exact Or.inl h1
      · exact Or.inr (List.mem_cons_of_mem n h1)
    · simp only [enqueue, hv, if_false] at h
      rcases ih (visited ++ [n]) (acc ++ [(n, path ++ [n])]) out h with h1 | h1
      · rcases List.mem_append.mp h1 with h2 | h2
        · exact Or.inl h2
        · simp only [List.mem_singleton] at h2
          subst h2
          exact Or.inr (List.mem_cons_self n ns)
      · exact Or.inr (List.mem_cons_of_mem n h1)

theorem bfsLoop_sound (b : GameBoard) (player : String)
    (owned front : List String) (start : String)
    (hown : ∀ x ∈ owned, ∃ tt, getTerritory b x = some tt ∧ tt.owner = some player) :
    ∀ queue visited,
    (∀ qp ∈ queue, qp.1 = start ∨ PlayerReach b player start qp.1) →
    ∀ out ∈ bfsLoop b owned front start queue visited,
      PlayerReach b player start out.1 := by
  intro queue visited
  refine bfsLoop.induct b owned front start
    (motive := fun queue visited =>
      (∀ qp ∈ queue, qp.1 = start ∨ PlayerReach b player start qp.1) →
      ∀ out ∈ bfsLoop b owned front start queue visited,
        PlayerReach b player start out.1) ?_ ?_ ?_ queue visited
  · intro v _ out hout
    simp only [bfsLoop] at hout
    cases hout
  · intro c path rest v hc ih hq out hout
    simp only [bfsLoop, if_pos hc] at hout
    rcases List.mem_cons.mp hout with h1 | h1
    · have := hq (c, path) (List.mem_cons_self _ _)
      rcases this with h2 | h2
      · exact absurd h2 hc.1
      · rw [h1]
        exact h2
    · exact ih (fun qp hqp => hq qp (List.mem_cons_of_mem _ hqp)) out h1
  · intro c path rest v hc pr ih hq out hout
    rw [bfsLoop.eq_2, if_neg hc] at hout
    refine ih ?_ out hout
    intro qp hqp
    rcases List.mem_append.mp hqp with h1 | h1
    · exact hq qp (List.mem_cons_of_mem _ h1)
    · rcases enqueue_mem path (tgLookup b owned c) v [] qp h1 with h2 | h2
      · cases h2
      · have hadj := mem_tgLookup_adj h2
        have howned := mem_tgLookup_owned h2
        obtain ⟨tt, htt, hto⟩ := hown qp.1 howned
        rcases hq (c, path) (List.mem_cons_self _ _) with hcs | hcr
        · right
          rw [← hcs]
          exact PlayerReach.single hadj htt hto
        · exact Or.inr (PlayerReach.cons hcr hadj htt hto)

theorem fortCandsOfAccessible_sound (vals : List (String × ℚ))
    (target : Option String) (b : GameBoard) (player : String) (f : String)
    (fA : Int) :
    ∀ acc cs, fortCandsOfAccessible vals target b player f fA acc = .ok cs →
    ∀ c ∈ cs, c.1 = f ∧ c.2.2.1 = max 1 (fA - 1) ∧ ∃ pa, (c.2.1, pa) ∈ acc := by
  intro acc
  induction acc with
  | nil =>
    intro cs h c hc
    simp only [fortCandsOfAccessible, Except.ok.injEq] at h
    subst h
    cases hc
  | cons e rest ih =>
    intro cs h c hc
    obtain ⟨t, path⟩ := e
    simp only [fortCandsOfAccessible] at h
    by_cases hpl : path.length < 1
    · rw [if_pos hpl] at h
      obtain ⟨h1, h2, pa, h3⟩ := ih cs h c hc
      exact ⟨h1, h2, pa, List.mem_cons_of_mem _ h3⟩
    · rw [if_neg hpl] at h
      cases ht : getTerritory b t with
      | none =>
        simp only [ht] at h
        obtain ⟨h1, h2, pa, h3⟩ := ih cs h c hc
        exact ⟨h1, h2, pa, List.mem_cons_of_mem _ h3⟩
      | some tt =>
        simp only [ht] at h
        cases hsc : calculate_fortification_score vals target b player t with
        | error e1 => rw [hsc] at h; simp [Bind.bind, Except.bind] at h
        | ok sc =>
          rw [hsc] at h
          cases hr : fortCandsOfAccessible vals target b player f fA rest with
          | error e1 => rw [hr] at h; simp [Bind.bind, Except.bind] at h
          | ok r =>
            rw [hr] at h
            simp only [Bind.bind, Except.bind, Pure.pure, Except.pure,
              Except.ok.injEq] at h
            subst h
            rcases List.mem_cons.mp hc with hc1 | hc1
            · subst hc1
              exact ⟨rfl, rfl, path, List.mem_cons_self _ _⟩
            · obtain ⟨h1, h2, pa, h3⟩ := ih r hr c hc1
              exact ⟨h1, h2, pa, List.mem_cons_of_mem _ h3⟩

theorem fortPrimary_sound (vals : List (String × ℚ)) (target : Option String)
    (b : GameBoard) (player : String) (owned fl : List String)
    (hown : ∀ x ∈ owned, ∃ tt, getTerritory b x = some tt ∧ tt.owner = some player) :
    ∀ interior cs, fortPrimary vals target b player owned fl interior = .ok cs →
    ∀ c ∈ cs, PlayerReach b player c.1 c.2.1 ∧
      ∃ ft, getTerritory b c.1 = some ft ∧ 1 < ft.armies ∧
        c.2.2.1 = max 1 (ft.armies - 1) := by
  intro interior
  induction interior with
  | nil =>
    intro cs h c hc
    simp only [fortPrimary, Except.ok.injEq] at h
    subst h
    cases hc
  | cons f rest ih =>
    intro cs h c hc
    simp only [fortPrimary] at h
    cases hf : getTerritory b f with
    | none =>
      simp only [hf] at h
      exact ih cs h c hc
    | some ft =>
      simp only [hf] at h
      by_cases harm : ft.armies ≤ 1
      · rw [if_pos harm] at h
        exact ih cs h c hc
      · rw [if_neg harm] at h
        cases hca : fortCandsOfAccessible vals target b player f ft.armies
            (bfsLoop b owned fl f [(f, [])] [f]) with
        | error e => rw [hca] at h; simp [Bind.bind, Except.bind] at h
        | ok cands =>
          rw [hca] at h
          cases hr : fortPrimary vals target b player owned fl rest with
          | error e => rw [hr] at h; simp [Bind.bind, Except.bind] at h
          | ok r =>
            rw [hr] at h
            simp only [Bind.bind, Except.bind, Pure.pure, Except.pure,
              Except.ok.injEq] at h
            subst h
            rcases List.mem_append.mp hc with hc1 | hc1
            · obtain ⟨h1, h2, pa, h3⟩ := fortCandsOfAccessible_sound vals target
                b player f ft.armies _ cands hca c hc1
              have hreach := bfsLoop_sound b player owned fl f hown
                [(f, [])] [f] (by
                  intro qp hqp
                  simp only [List.mem_singleton] at hqp
                  subst hqp
                  exact Or.inl rfl) (c.2.1, pa) h3
              rw [h1]
              exact ⟨hreach, ft, hf, lt_of_not_le harm, h2⟩
            · exact ih r hr c hc1

theorem fortFallbackInner_sound (vals : List (String × ℚ))
    (target : Option String) (b : GameBoard) (player : String)
    (fl : List String) (f : String) (fA : Int) (fth : ℚ) :
    ∀ adjs cs, fortFallbackInner vals target b player fl f fA fth adjs = .ok cs →
    ∀ c ∈ cs, c.1 = f ∧ c.2.1 ∈ adjs ∧ c.2.2.1 = max 1 (fA - 1) := by
  intro adjs
  induction adjs with
  | nil =>
    intro cs h c hc
    simp only [fortFallbackInner, Except.ok.injEq] at h
    subst h
    cases hc
  | cons t rest ih =>
    intro cs h c hc
    simp only [fortFallbackInner] at h
    by_cases htf : t ∈ fl
    · rw [if_pos htf] at h
      cases ht : getTerritory b t with
      | none =>
        simp only [ht] at h
        obtain ⟨h1, h2, h3⟩ := ih cs h c hc
        exact ⟨h1, List.mem_cons_of_mem _ h2, h3⟩
      | some tt =>
        simp only [ht] at h
        cases hsc : calculate_fortification_score vals target b player t with
        | error e => rw [hsc] at h; simp [Bind.bind, Except.bind] at h
        | ok sc =>
          rw [hsc] at h
          cases hr : fortFallbackInner vals target b player fl f fA fth rest with
          | error e => rw [hr] at h; simp [Bind.bind, Except.bind] at h
          | ok r =>
            rw [hr] at h
            simp only [Bind.bind, Except.bind, Pure.pure, Except.pure,
              Except.ok.injEq] at h
            by_cases hth : fth < calculate_territory_threat b player t
            · rw [if_pos hth] at h
              subst h
              rcases List.mem_cons.mp hc with hc1 | hc1
              · subst hc1
                exact ⟨rfl, List.mem_cons_self _ _, rfl⟩
              · obtain ⟨h1, h2, h3⟩ := ih r hr c hc1
                exact ⟨h1, List.mem_cons_of_mem _ h2, h3⟩
            · rw [if_neg hth] at h
              subst h
              obtain ⟨h1, h2, h3⟩ := ih r hr c hc
              exact ⟨h1, List.mem_cons_of_mem _ h2, h3⟩
    · rw [if_neg htf] at h
      obtain ⟨h1, h2, h3⟩ := ih cs h c hc
      exact ⟨h1, List.mem_cons_of_mem _ h2, h3⟩

theorem fortFallback_sound (vals : List (String × ℚ)) (target : Option String)
    (b : GameBoard) (player : String) (owned fl : List String)
    (hown : ∀ x ∈ owned, ∃ tt, getTerritory b x = some tt ∧ tt.owner = some player) :
    ∀ srcs cs, fortFallback vals target b player owned fl srcs = .ok cs →
    ∀ c ∈ cs, PlayerReach b player c.1 c.2.1 ∧
      ∃ ft, getTerritory b c.1 = some ft ∧ 1 < ft.armies ∧
        c.2.2.1 = max 1 (ft.armies - 1) := by
  intro srcs
  induction srcs with
  | nil =>
    intro cs h c hc
    simp only [fortFallback, Except.ok.injEq] at h
    subst h
    cases hc
  | cons f rest ih =>
    intro cs h c hc
    simp only [fortFallback] at h
    cases hf : getTerritory b f with
    | none =>
      simp only [hf] at h
      exact ih cs h c hc
    | some ft =>
      simp only [hf] at h
      by_cases harm : ft.armies ≤ 1
      · rw [if_pos harm] at h
        exact ih cs h c hc
      · rw [if_neg harm] at h
        by_cases hth : 1/2 < calculate_territory_threat b player f
        · rw [if_pos hth] at h
          exact ih cs h c hc
        · rw [if_neg hth] at h
          cases hin : fortFallbackInner vals target b player fl f ft.armies
              (calculate_territory_threat b player f) (tgLookup b owned f) with
          | error e => rw [hin] at h; simp [Bind.bind, Except.bind] at h
          | ok inner =>
            rw [hin] at h
            cases hr : fortFallback vals target b player owned fl rest with
            | error e => rw [hr] at h; simp [Bind.bind, Except.bind] at h
            | ok r =>
              rw [hr] at h
              simp only [Bind.bind, Except.bind, Pure.pure, Except.pure,
                Except.ok.injEq] at h
              subst h
              rcases List.mem_append.mp hc with hc1 | hc1
              · obtain ⟨h1, h2, h3⟩ := fortFallbackInner_sound vals target b
                  player fl f ft.armies _ _ inner hin c hc1
                have hadj := mem_tgLookup_adj h2
                have howned := mem_tgLookup_owned h2
                obtain ⟨tt, htt, hto⟩ := hown c.2.1 howned
                rw [h1]
                exact ⟨PlayerReach.single hadj htt hto, ft, hf,
                  lt_of_not_le harm, h3⟩
              · exact ih r hr c hc1

/-- C1 (amended): under the base fortification planner (used unchanged by
every variant except the Genghis Khan, Sun Tzu and Elizabeth overrides), a
returned move's destination is reachable from its source through a nonempty
chain of player-owned territories and the amount moved is at most
`armies(source) - 1`; the Genghis Khan override preserves the source and the
amount bound, but not reachability of its replaced destination. -/
theorem fortification_reachable (vals : List (String × ℚ))
    (target : Option String) (b : GameBoard) (player : String)
    (owned : List String)
    (hown : ∀ x ∈ owned, ∃ tt, getTerritory b x = some tt ∧ tt.owner = some player) :
    (∀ s d a, get_best_fortification_move vals target b player owned =
        .ok (some (s, d, a)) →
      PlayerReach b player s d ∧ ∃ ft, getTerritory b s = some ft ∧
        a ≤ ft.armies - 1) ∧
    (∀ s d a, genghisFortMove vals target b player owned = .ok (some (s, d, a)) →
      ∃ ft, getTerritory b s = some ft ∧ a ≤ ft.armies - 1) := by
  have hbase : ∀ s d a, get_best_fortification_move vals target b player owned =
      .ok (some (s, d, a)) →
      PlayerReach b player s d ∧ ∃ ft, getTerritory b s = some ft ∧
        a ≤ ft.armies - 1 := by
    intro s d a h
    unfold get_best_fortification_move at h
    simp only [] at h
    cases hp : fortPrimary vals target b player owned
        (owned.filter (fun t => is_front_line_territory b player t))
        (owned.filter (fun t => ! is_front_line_territory b player t)) with
    | error e => rw [hp] at h; simp [Bind.bind, Except.bind] at h
    | ok prim =>
      rw [hp] at h
      simp only [Bind.bind, Except.bind] at h
      by_cases hpe : prim = []
      · rw [if_pos hpe] at h
        cases hfb : fortFallback vals target b player owned
            (owned.filter (fun t => is_front_line_territory b player t))
            (owned.filter (fun t => is_front_line_territory b player t)) with
        | error e => rw [hfb] at h; cases h
        | ok fall =>
          simp only [hfb] at h
          cases hsort : sortDescBy (fun c => c.2.2.2) fall with
          | nil => simp only [hsort] at h; cases h;
          | cons c0 cs0 =>
            simp only [hsort, Pure.pure, Except.pure, Except.ok.injEq,
              Option.some.injEq] at h
            have hc0 : c0 ∈ fall := mem_of_mem_sortDescBy
              (hsort ▸ List.mem_cons_self c0 cs0)
            obtain ⟨hreach, ft, hft, harm, hamt⟩ := fortFallback_sound vals
              target b player owned _ hown _ fall hfb c0 hc0
            have hs : c0.1 = s := congrArg Prod.fst h
            have hd : c0.2.1 = d := congrArg Prod.fst (congrArg Prod.snd h)
            have ha : c0.2.2.1 = a := congrArg Prod.snd (congrArg Prod.snd h)
            rw [hs, hd] at hreach
            rw [hs] at hft
            refine ⟨hreach, ft, hft, ?_⟩
            rw [← ha, hamt]
            omega
      · rw [if_neg hpe] at h
        simp only [Pure.pure, Except.pure] at h
        cases hsort : sortDescBy (fun c => c.2.2.2) prim with
        | nil => simp only [hsort] at h; cases h
        | cons c0 cs0 =>
          simp only [hsort, Except.ok.injEq, Option.some.injEq] at h
          have hc0 : c0 ∈ prim := mem_of_mem_sortDescBy
            (hsort ▸ List.mem_cons_self c0 cs0)
          obtain ⟨hreach, ft, hft, harm, hamt⟩ := fortPrimary_sound vals target
            b player owned _ hown _ prim hp c0 hc0
          have hs : c0.1 = s := congrArg Prod.fst h
          have hd : c0.2.1 = d := congrArg Prod.fst (congrArg Prod.snd h)
          have ha : c0.2.2.1 = a := congrArg Prod.snd (congrArg Prod.snd h)
          rw [hs, hd] at hreach
          rw [hs] at hft
          refine ⟨hreach, ft, hft, ?_⟩
          rw [← ha, hamt]
          omega
  refine ⟨hbase, ?_⟩
  intro s d a h
  unfold genghisFortMove at h
  cases hbm : get_best_fortification_move vals target b player owned with
  | error e => rw [hbm] at h; cases h
  | ok bm =>
    rw [hbm] at h
    simp only [Bind.bind, Except.bind] at h
    cases bm with
    | none => simp only [Pure.pure, Except.pure, Except.ok.injEq] at h; cases h
    | some trip =>
      obtain ⟨s0, d0, a0⟩ := trip
      obtain ⟨_, ft, hft, hamt⟩ := hbase s0 d0 a0 hbm
      have hsa : s = s0 ∧ a = a0 := by
        cases hd0 : getTerritory b d0 with
        | none =>
          simp only [hd0, Pure.pure, Except.pure, Except.ok.injEq,
            Option.some.injEq] at h
          exact ⟨(congrArg Prod.fst h).symm, (congrArg Prod.snd (congrArg Prod.snd h)).symm⟩
        | some dt =>
          simp only [hd0] at h
          by_cases hda : (getAdj b d0).length < 3
          · rw [if_pos hda] at h
            cases hscan : genghisFortScan b player s0 ((getAdj b d0).length) owned with
            | none =>
              simp only [hscan, Pure.pure, Except.pure, Except.ok.injEq,
                Option.some.injEq] at h
              exact ⟨(congrArg Prod.fst h).symm, (congrArg Prod.snd (congrArg Prod.snd h)).symm⟩
            | some t =>
              simp only [hscan, Pure.pure, Except.pure, Except.ok.injEq,
                Option.some.injEq] at h
              exact ⟨(congrArg Prod.fst h).symm, (congrArg Prod.snd (congrArg Prod.snd h)).symm⟩
          · rw [if_neg hda] at h
            simp only [Pure.pure, Except.pure, Except.ok.injEq,
              Option.some.injEq] at h
            exact ⟨(congrArg Prod.fst h).symm, (congrArg Prod.snd (congrArg Prod.snd h)).symm⟩
      rw [hsa.1, hsa.2]
      exact ⟨ft, hft, hamt⟩

/-- Board for the Genghis Khan fortification counterexample: the owned
component {A, B} (with enemy C behind B) is disconnected from the owned
front-line territory D, which is better connected (3 enemy neighbours). -/
def cexBoard : GameBoard :=
  { territories := [("A", ⟨some "P", 5⟩), ("B", ⟨some "P", 1⟩),
      ("C", ⟨some "Q", 1⟩), ("D", ⟨some "P", 1⟩), ("E", ⟨some "Q", 1⟩),
      ("F", ⟨some "Q", 1⟩), ("G", ⟨some "Q", 1⟩)]
    continents := []
    adjacencies := [("A", ["B"]), ("B", ["A", "C"]), ("C", ["B"]),
      ("D", ["E", "F", "G"]), ("E", ["D"]), ("F", ["D"]), ("G", ["D"])] }

/-- Territory values stored by a freshly constructed Genghis Khan strategy on
the counterexample board. -/
def cexVals : List (String × ℚ) :=
  [("A", 22/25), ("B", 27/25), ("C", 22/25), ("D", 13/10), ("E", 22/25),
   ("F", 22/25), ("G", 22/25)]

/-- Counterexample for C1 as stated: the Genghis Khan override replaces the
planned destination B (2 connections) by the better-connected front-line
territory D, which is not reachable from the source A through owned
territories. -/
theorem fortification_reachable_cex :
    csvVariant .genghis cexBoard "P" = .ok ([], cexVals) ∧
    genghisFortMove cexVals none cexBoard "P" ["A", "B", "D"] =
      .ok (some ("A", "D", 4)) ∧
    ¬ PlayerReach cexBoard "P" "A" "D" := by
  refine ⟨?_, ?_, ?_⟩
  · simp [csvVariant, calculate_strategic_values, contPrios, genghisVals,
      terrVals, count_continent_entry_points, getContinent, getTerritory,
      getAdj, get_continent_for_territory, is_continent_gateway, lookupD,
      cexBoard, cexVals, List.find?, List.filter, List.any, Bind.bind,
      Except.bind, Pure.pure, Except.pure, min_def, max_def]
    norm_num
  · simp [genghisFortMove, get_best_fortification_move, fortPrimary,
      fortCandsOfAccessible, fortFallback, fortFallbackInner, bfsLoop, enqueue,
      tgLookup, is_front_line_territory, getTerritory, getAdj,
      calculate_fortification_score, calculate_territory_threat,
      enemyAdjacentArmies, lookupD, targetMatch, get_continent_for_territory,
      get_player_continent_control, get_player_continent_control.go, cexBoard,
      cexVals, sortDescBy, insertDescBy, genghisFortScan, List.find?,
      List.filter, List.any, Bind.bind, Except.bind, Pure.pure, Except.pure,
      min_def, max_def]
  · intro hr
    have hclosed : ∀ src x, PlayerReach cexBoard "P" src x → src = "A" →
        x = "B" ∨ x = "A" := by
      intro src x hx
      induction hx with
      | single hadj hy howner =>
        intro hsrc
        subst hsrc
        simp only [getAdj, cexBoard, List.find?] at hadj
        simp at hadj
        exact Or.inl hadj
      | cons hxy hadj hz howner ih =>
        intro hsrc
        rcases ih hsrc with hB | hA
        · subst hB
          simp only [getAdj, cexBoard, List.find?] at hadj
          simp at hadj
          rcases hadj with rfl | rfl
          · exact Or.inr rfl
          · simp only [getTerritory, cexBoard, List.find?] at hz
            simp at hz
            rw [← hz] at howner
            simp at howner
        · subst hA
          simp only [getAdj, cexBoard, List.find?] at hadj
          simp at hadj
          exact Or.inl hadj
    rcases hclosed "A" "D" hr rfl with h | h <;> simp at h

/-- Three-territory board for the C1 witness: interior source A feeds the
front-line destination B. -/
def fortWitnessBoard : GameBoard :=
  { territories := [("A", ⟨some "P", 3⟩), ("B", ⟨some "P", 1⟩),
      ("C", ⟨some "Q", 1⟩)]
    continents := []
    adjacencies := [("A", ["B"]), ("B", ["A", "C"]), ("C", ["B"])] }

/-- Witness for C1 (amended): the base planner moves 2 armies from A to the
reachable front line B, leaving one behind. -/
theorem fortification_reachable_witness :
    (∀ x ∈ ["A", "B"], ∃ tt, getTerritory fortWitnessBoard x = some tt ∧
      tt.owner = some "P") ∧
    get_best_fortification_move [] none fortWitnessBoard "P" ["A", "B"] =
      .ok (some ("A", "B", 2)) ∧
    (PlayerReach fortWitnessBoard "P" "A" "B" ∧
      ∃ ft, getTerritory fortWitnessBoard "A" = some ft ∧
        (2 : Int) ≤ ft.armies - 1) := by
  have hown : ∀ x ∈ ["A", "B"], ∃ tt, getTerritory fortWitnessBoard x = some tt ∧
      tt.owner = some "P" := by
    intro x hx
    simp only [List.mem_cons, List.not_mem_nil, or_false] at hx
    rcases hx with rfl | rfl
    · exact ⟨⟨some "P", 3⟩, by simp [getTerritory, fortWitnessBoard, List.find?], rfl⟩
    · exact ⟨⟨some "P", 1⟩, by simp [getTerritory, fortWitnessBoard, List.find?], rfl⟩
  have heval : get_best_fortification_move [] none fortWitnessBoard "P"
      ["A", "B"] = .ok (some ("A", "B", 2)) := by
    simp [get_best_fortification_move, fortPrimary, fortCandsOfAccessible,
      fortFallback, fortFallbackInner, bfsLoop, enqueue, tgLookup,
      is_front_line_territory, getTerritory, getAdj,
      calculate_fortification_score, calculate_territory_threat,
      enemyAdjacentArmies, lookupD, targetMatch, get_continent_for_territory,
      get_player_continent_control, get_player_continent_control.go,
      fortWitnessBoard, sortDescBy, insertDescBy, List.find?, List.filter,
      List.any, Bind.bind, Except.bind, Pure.pure, Except.pure, min_def,
      max_def]
  exact ⟨hown, heval,
    (fortification_reachable [] none fortWitnessBoard "P" ["A", "B"] hown).1
      "A" "B" 2 heval⟩

end Risk
